import Mathlib

/-!
# Verification of the jsongrep core: condition/query evaluator and ordering engine

This file is a shallow embedding of the core of the `jsongrep` repository
(`src/compare/value.rs`, `src/compare/sort.rs`, `src/eval/cond.rs`,
`src/eval/query_condition.rs`, `src/eval/query_pair.rs`, `src/query.rs`),
together with theorems settling the frozen claims about it.

Modelling conventions:
* Rust `f64` values are modelled by their exact rational values (`ℚ`); the
  machine epsilon `f64::EPSILON` is the rational `2⁻⁵²`.  All floating point
  values appearing in concrete inputs below are exactly representable dyadic
  rationals, for which the modelled arithmetic agrees with `f64` arithmetic.
* `serde_json::Number` stores either an integer (covering the `i64`/`u64`
  storage classes) or a float; `as_f64` is idealised as exact.
* Rust `String` comparison (byte-wise lexicographic on UTF-8) is modelled as
  code-point lexicographic comparison, which coincides with it on valid UTF-8.
* The regex engine is an external component; evaluation is parameterised by a
  regex-test oracle `rt : String → String → Except ErrorCode Bool`.
-/

namespace Jsongrep

/-- Model of `serde_json::Number`: either integer storage (`i64`/`u64`) or
`f64` storage.  The numeric value of the float storage is its exact rational
value. -/
inductive JNum where
  | ofInt (n : Int)
  | ofFloat (q : ℚ)
deriving DecidableEq, Repr

/-- `Number::as_f64`, idealised as exact. -/
def JNum.toRat : JNum → ℚ
  | .ofInt n => (n : ℚ)
  | .ofFloat q => q

/-- `Number::is_i64`: true exactly for integer storage within `i64` range
(`u64` values above `i64::MAX` and floats report `false`). -/
def JNum.isI64 : JNum → Bool
  | .ofInt n => decide (-(2 ^ 63) ≤ n ∧ n < 2 ^ 63)
  | .ofFloat _ => false

/-- `Number::as_i64().unwrap()`; only used on `isI64` numbers. -/
def JNum.asI64 : JNum → Int
  | .ofInt n => n
  | .ofFloat _ => 0

/-- Model of `serde_json::Value`. Objects are association lists with distinct
keys (serde's map); `pointer` only performs key lookup. -/
inductive JValue where
  | null
  | bool (b : Bool)
  | num (n : JNum)
  | str (s : String)
  | arr (xs : List JValue)
  | obj (kvs : List (String × JValue))
deriving Repr

/-- Key lookup in an object, first match (serde's map holds distinct keys). -/
def lookupKey (k : String) : List (String × JValue) → Option JValue
  | [] => none
  | (k', v) :: rest => if k' = k then some v else lookupKey k rest

/-- Decimal digit parsing (the semantics of `str::parse::<usize>` on the
digits of a token; an empty or non-digit token fails). -/
def digitsToNat (acc : Nat) : List Char → Option Nat
  | [] => some acc
  | c :: cs => if c.isDigit then digitsToNat (acc * 10 + (c.toNat - 48)) cs else none

/-- `serde_json`'s pointer-token index parser: rejects a leading `+`, rejects
leading zeros (`"0"` itself is fine), then parses decimal digits. -/
def parseIndexChars : List Char → Option Nat
  | [] => none
  | c :: cs =>
    if c = '+' then none
    else if c = '0' ∧ cs ≠ [] then none
    else digitsToNat 0 (c :: cs)

def parseIndex (s : String) : Option Nat := parseIndexChars s.data

/-- Replace every (leftmost, non-overlapping) occurrence of the two-character
pattern `p1 p2` by the character `r` (the semantics of `str::replace` for the
two-character patterns `"~1"` and `"~0"`). -/
def replace2 (p1 p2 r : Char) : List Char → List Char
  | [] => []
  | [c] => [c]
  | c1 :: c2 :: cs =>
    if c1 = p1 ∧ c2 = p2 then r :: replace2 p1 p2 r cs
    else c1 :: replace2 p1 p2 r (c2 :: cs)

/-- One JSON-pointer reference token, unescaped (`~1` → `/`, then `~0` → `~`),
as in `serde_json::Value::pointer`. -/
def unescapeToken (t : List Char) : String :=
  ⟨replace2 '~' '0' '~' (replace2 '~' '1' '/' t)⟩

/-- Split a character list on a separator character (`str::split`: `n`
separators yield `n + 1` pieces; the empty string yields one empty piece). -/
def splitOnChar (sep : Char) : List Char → List (List Char)
  | [] => [[]]
  | c :: cs =>
    match splitOnChar sep cs with
    | [] => [[]]
    | g :: gs => if c = sep then [] :: g :: gs else (c :: g) :: gs

/-- Walk a token list down a JSON value (the loop of `Value::pointer`). -/
def JValue.pointerWalk : JValue → List String → Option JValue
  | v, [] => some v
  | .obj kvs, t :: ts => match lookupKey t kvs with
      | some v => v.pointerWalk ts
      | none => none
  | .arr xs, t :: ts => match parseIndex t with
      | some i => match xs[i]? with
          | some v => v.pointerWalk ts
          | none => none
      | none => none
  | _, _ :: _ => none

/-- `serde_json::Value::pointer`: `""` addresses the whole document, anything
not starting with `/` resolves to nothing, otherwise split on `/`, drop the
leading empty piece, unescape each token and walk. -/
def JValue.pointer (v : JValue) (p : String) : Option JValue :=
  if p = "" then some v
  else match p.data with
    | '/' :: rest => v.pointerWalk ((splitOnChar '/' rest).map unescapeToken)
    | _ => none

/-! ## Sortable Value comparison (`src/compare/value.rs`) -/

/-- `f64::EPSILON` as an exact rational, `2⁻⁵²` (given by numerator and
denominator so that concrete computations reduce in the kernel). -/
def eps : ℚ := Rat.mk' 1 (2 ^ 52) (by norm_num) (Nat.coprime_one_left _)

theorem eps_eq : eps = 1 / 2 ^ 52 := by
  rw [← Rat.num_div_den eps]
  norm_num [eps]

/-- Rational strict comparison by cross multiplication; used so that concrete
comparisons reduce in the kernel (plain `ℚ` subtraction normalises through
`Nat.gcd`, which the kernel cannot unfold). -/
def ratLtB (x y : ℚ) : Bool := decide (x.num * (y.den : Int) < y.num * (x.den : Int))

theorem ratLtB_iff {x y : ℚ} : ratLtB x y = true ↔ x < y := by
  rw [ratLtB, decide_eq_true_iff]
  exact Rat.lt_def.symm

/-- `|x − y| ≤ e` by cross multiplication, kernel-reducible. -/
def ratAbsSubLeB (x y e : ℚ) : Bool :=
  decide (|x.num * (y.den : Int) - y.num * (x.den : Int)| * (e.den : Int) ≤
    e.num * ((x.den : Int) * (y.den : Int)))

theorem ratAbsSubLeB_iff {x y e : ℚ} : ratAbsSubLeB x y e = true ↔ |x - y| ≤ e := by
  have hx : (0 : ℚ) < (x.den : ℚ) := by exact_mod_cast x.den_pos
  have hy : (0 : ℚ) < (y.den : ℚ) := by exact_mod_cast y.den_pos
  have he : (0 : ℚ) < (e.den : ℚ) := by exact_mod_cast e.den_pos
  have hxne : (x.den : ℚ) ≠ 0 := hx.ne'
  have hyne : (y.den : ℚ) ≠ 0 := hy.ne'
  have hene : (e.den : ℚ) ≠ 0 := he.ne'
  have hC : (0 : ℚ) < (x.den : ℚ) * (y.den : ℚ) * (e.den : ℚ) := by positivity
  have hxq : (x.num : ℚ) = x * (x.den : ℚ) := (div_eq_iff hxne).mp (Rat.num_div_den x)
  have hyq : (y.num : ℚ) = y * (y.den : ℚ) := (div_eq_iff hyne).mp (Rat.num_div_den y)
  have heq : (e.num : ℚ) = e * (e.den : ℚ) := (div_eq_iff hene).mp (Rat.num_div_den e)
  have hN : (x - y) * ((x.den : ℚ) * (y.den : ℚ)) =
      ((x.num * (y.den : Int) - y.num * (x.den : Int) : Int) : ℚ) := by
    push_cast
    rw [hxq, hyq]
    ring
  have lhs_eq : |x - y| * ((x.den : ℚ) * (y.den : ℚ) * (e.den : ℚ)) =
      ((|x.num * (y.den : Int) - y.num * (x.den : Int)| * (e.den : Int) : Int) : ℚ) := by
    calc |x - y| * ((x.den : ℚ) * (y.den : ℚ) * (e.den : ℚ))
        = |x - y| * ((x.den : ℚ) * (y.den : ℚ)) * (e.den : ℚ) := by ring
      _ = |(x - y) * ((x.den : ℚ) * (y.den : ℚ))| * (e.den : ℚ) := by
            rw [abs_mul, abs_of_pos (mul_pos hx hy)]
      _ = |((x.num * (y.den : Int) - y.num * (x.den : Int) : Int) : ℚ)| * (e.den : ℚ) := by
            rw [hN]
      _ = ((|x.num * (y.den : Int) - y.num * (x.den : Int)| * (e.den : Int) : Int) : ℚ) := by
            push_cast [Int.cast_abs]
            ring
  have rhs_eq : e * ((x.den : ℚ) * (y.den : ℚ) * (e.den : ℚ)) =
      ((e.num * ((x.den : Int) * (y.den : Int)) : Int) : ℚ) := by
    calc e * ((x.den : ℚ) * (y.den : ℚ) * (e.den : ℚ))
        = e * (e.den : ℚ) * ((x.den : ℚ) * (y.den : ℚ)) := by ring
      _ = (e.num : ℚ) * ((x.den : ℚ) * (y.den : ℚ)) := by rw [heq]
      _ = ((e.num * ((x.den : Int) * (y.den : Int)) : Int) : ℚ) := by push_cast; ring
  rw [ratAbsSubLeB, decide_eq_true_iff, ← @Int.cast_le ℚ _ _ _, ← lhs_eq, ← rhs_eq]
  exact ⟨fun h => le_of_mul_le_mul_right h hC, fun h => mul_le_mul_of_nonneg_right h hC.le⟩

/-- String comparison: Rust's `str::cmp` is byte-wise lexicographic on UTF-8,
equivalently code-point lexicographic. -/
def strCmpAux : List Char → List Char → Ordering
  | [], [] => .eq
  | [], _ :: _ => .lt
  | _ :: _, [] => .gt
  | a :: as_, b :: bs => match compare a.toNat b.toNat with
      | .eq => strCmpAux as_ bs
      | o => o

def strCmp (s t : String) : Ordering := strCmpAux s.data t.data

/-- `PartialEq for PairValue` (`compare/value.rs` lines 13–27): same-variant
equality; arrays and objects are equal regardless of contents; numbers are
equal when `|x − y| ≤ f64::EPSILON`. -/
def pvEq : JValue → JValue → Bool
  | .null, .null => true
  | .arr _, .arr _ => true
  | .obj _, .obj _ => true
  | .bool x, .bool y => x == y
  | .num x, .num y => ratAbsSubLeB x.toRat y.toRat eps
  | .str x, .str y => strCmp x y == .eq
  | _, _ => false

theorem pvEq_num {x y : JNum} :
    pvEq (.num x) (.num y) = true ↔ |x.toRat - y.toRat| ≤ eps := by
  simp [pvEq, ratAbsSubLeB_iff]

/-- `PartialOrd for PairValue` (`compare/value.rs` lines 29–63), total by
`Ord::cmp`'s `unwrap`: equality first, then the variant ladder
`Null < Array < Object < Bool < Number < String`, numbers by `<` (the
non-equal case returns `Greater` when not `<`), strings lexicographic. -/
def pvCmp (a b : JValue) : Ordering :=
  if pvEq a b then .eq
  else match a, b with
    | .null, _ => .lt
    | .arr _, .null => .gt
    | .arr _, _ => .lt
    | .obj _, .null => .gt
    | .obj _, .arr _ => .gt
    | .obj _, _ => .lt
    | .bool _, .null => .gt
    | .bool _, .arr _ => .gt
    | .bool _, .obj _ => .gt
    | .bool false, .bool true => .lt
    | .bool true, .bool false => .gt
    | .bool _, _ => .lt
    | .num _, .null => .gt
    | .num _, .arr _ => .gt
    | .num _, .obj _ => .gt
    | .num _, .bool _ => .gt
    | .num x, .num y => if ratLtB x.toRat y.toRat then .lt else .gt
    | .num _, _ => .lt
    | .str x, .str y => strCmp x y
    | .str _, _ => .gt

example : pvCmp .null (.bool true) = .lt := by decide
example : pvCmp (.num (.ofInt 3)) (.num (.ofInt 3)) = .eq := by decide
example : pvCmp (.str "harbinger") (.str "moon") = .lt := by decide

/-! ## Ordering engine (`src/compare/sort.rs`, `src/sort.rs`) -/

/-- `raw_sort::Order`. -/
inductive Order where
  | asc
  | desc
deriving DecidableEq, Repr

/-- `PairSetting`: JSON pointer and sort order. -/
structure PairSetting where
  pointer : String
  order : Order
deriving Repr

/-- `Pairs`: an index in the original list and the extracted sort keys. -/
structure Pairs where
  index : Nat
  pairs : List JValue
deriving Repr

/-- `PairsListBuilder::add`: extract one key per setting (unresolvable
pointer becomes `Null`), tag with the current length as insertion index. -/
def builderAdd (settings : List PairSetting) (list : List Pairs) (value : JValue) :
    List Pairs :=
  list ++ [⟨list.length, settings.map fun s => (value.pointer s.pointer).getD JValue.null⟩]

/-- Adding a sequence of documents to a fresh builder. -/
def buildList (settings : List PairSetting) (values : List JValue) : List Pairs :=
  values.foldl (builderAdd settings) []

/-- Insert into a sorted list, before the first element `b` with `le a b`
(the standard stable insertion). -/
def oInsert (le : α → α → Bool) (a : α) : List α → List α
  | [] => [a]
  | b :: l => if le a b then a :: b :: l else b :: oInsert le a l

/-- Stable sort model: insertion sort with a Boolean comparator.  Rust's
`sort_by` is a stable comparison sort; for any total-preorder comparator all
stable comparison sorts produce this list. -/
def isort (le : α → α → Bool) : List α → List α
  | [] => []
  | a :: l => oInsert le a (isort le l)

/-- `a.pairs[index]`; in every use the index is within bounds. -/
def keyAt (i : Nat) (a : Pairs) : JValue := a.pairs.getD i JValue.null

/-- The comparator of `PairsList::sort_by` for one criterion: ascending uses
`a.pairs[index].cmp(&b.pairs[index])`, descending swaps the operands. -/
def passCmp (o : Order) (i : Nat) (a b : Pairs) : Ordering :=
  match o with
  | .asc => pvCmp (keyAt i a) (keyAt i b)
  | .desc => pvCmp (keyAt i b) (keyAt i a)

/-- Order of the `i`-th setting (in-bounds in every use). -/
def orderAt (settings : List PairSetting) (i : Nat) : Order :=
  (settings.getD i ⟨"", .asc⟩).order

/-- The stable-sort "less or equal" of pass `i`: the pass keeps `a` before
`b` exactly when the comparator does not say `Greater`. -/
def passLe (settings : List PairSetting) (i : Nat) (a b : Pairs) : Bool :=
  passCmp (orderAt settings i) i a b != .gt

/-- One stable sort pass by criterion `i` (`PairsList::sort_by`). -/
def sortPass (settings : List PairSetting) (l : List Pairs) (i : Nat) : List Pairs :=
  isort (passLe settings i) l

/-- `PairsList::sort`: one stable pass per criterion, in declared order. -/
def pairsSort (settings : List PairSetting) (l : List Pairs) : List Pairs :=
  (List.range settings.length).foldl (sortPass settings) l

/-- `PairsList::indexes`. -/
def indexes (l : List Pairs) : List Nat := l.map (·.index)

/-- `Sort::sorted_indexes` (`src/sort.rs`): build, sort sequentially, read
the permuted original indexes. -/
def sortedIndexes (settings : List PairSetting) (values : List JValue) : List Nat :=
  indexes (pairsSort settings (buildList settings values))

/-- Modelled from the spec: the "equivalent and more efficient" single
composite comparator, comparing the criteria in reverse declared order and
falling through to the next criterion only when the two Sortable Values
compare equal.  (This implementation does not exist in the repository; the
spec asserts it is equivalent to `PairsList::sort`.) -/
def compCmp (settings : List PairSetting) (a b : Pairs) : Ordering :=
  (List.range settings.length).foldl
    (fun acc i =>
      match passCmp (orderAt settings i) i a b with
      | .eq => acc
      | o => o) .eq

/-- Modelled from the spec: stable sort keeps `a` before `b` when the
composite comparator does not say `Greater`. -/
def compLe (settings : List PairSetting) (a b : Pairs) : Bool :=
  compCmp settings a b != .gt

/-- Modelled from the spec: one single stable sort with the composite
comparator instead of the sequential passes. -/
def compSortedIndexes (settings : List PairSetting) (values : List JValue) : List Nat :=
  indexes (isort (compLe settings) (buildList settings values))

/-- The four records of the spec's priority example. -/
def recsIJ : List JValue :=
  [ .obj [("i", .num (.ofInt 0)), ("j", .num (.ofInt 1))]
  , .obj [("i", .num (.ofInt 1)), ("j", .num (.ofInt 1))]
  , .obj [("i", .num (.ofInt 1)), ("j", .num (.ofInt 0))]
  , .obj [("i", .num (.ofInt 0)), ("j", .num (.ofInt 0))] ]

example : sortedIndexes [⟨"/i", .asc⟩, ⟨"/j", .asc⟩] recsIJ = [3, 2, 0, 1] := by decide
example : sortedIndexes [⟨"/j", .asc⟩, ⟨"/i", .asc⟩] recsIJ = [3, 0, 2, 1] := by decide

/-- `f64::EPSILON * 2 = 2⁻⁵¹` as an exact rational. -/
def eps2 : ℚ := Rat.mk' 1 (2 ^ 51) (by norm_num) (Nat.coprime_one_left _)

/-- Three records on which the sequential per-criterion sort and the
composite-comparator sort disagree (keys at `ε` scale, where the
`ε`-tolerant Sortable-Value number equality is not transitive). -/
def recsEps : List JValue :=
  [ .obj [("a", .num (.ofFloat eps2)), ("b", .num (.ofInt 0))]
  , .obj [("a", .num (.ofInt 0)), ("b", .num (.ofFloat eps2))]
  , .obj [("a", .num (.ofInt 0)), ("b", .num (.ofFloat eps))] ]

example : sortedIndexes [⟨"/a", .asc⟩, ⟨"/b", .asc⟩] recsEps = [1, 2, 0] := by decide
example : compSortedIndexes [⟨"/a", .asc⟩, ⟨"/b", .asc⟩] recsEps = [0, 1, 2] := by decide

/-! ## Scalar values and conditions (`src/query.rs`) -/

/-- `query::Value`: the typed scalar of the condition domain. -/
inductive SValue where
  | null
  | bool (b : Bool)
  | int (n : Int)
  | float (q : ℚ)
  | str (s : String)
deriving DecidableEq, Repr

/-- `query::MatchType`. -/
inductive MatchType where
  | contain
  | regex
deriving DecidableEq, Repr

/-- `query::Condition`. -/
inductive Condition where
  | equal (v : SValue)
  | greaterThan (v : SValue)
  | lessThan (v : SValue)
  | smatch (v : SValue) (t : MatchType)
  | not (c : Condition)
  | and (cs : List Condition)
  | or (cs : List Condition)
deriving Repr

/-- `fmt::Display for Value` (`query.rs` lines 129–139).  The float case is
idealised as the rendering of the exact rational value; no claim depends on
a float's rendered text. -/
def SValue.display : SValue → String
  | .null => "Null"
  | .bool b => "Bool(" ++ toString b ++ ")"
  | .int n => "Int(" ++ toString n ++ ")"
  | .float q => "Float(" ++ toString q ++ ")"
  | .str s => "String(" ++ s ++ ")"

/-- `format!("{:?}", t)` for `MatchType`. -/
def MatchType.display : MatchType → String
  | .contain => "Contain"
  | .regex => "Regex"

/-- `std::any::type_name::<&query::Value>()`, the `want` string of a
`TypeMismatch` raised by `Condition` handlers (`util::type_name(l)` is
instantiated at the reference type, not at the variant). -/
def valueTypeName : String := "&jsongrep::query::Value"

/-- `std::any::type_name::<&query::Condition>()`, the `by` string of errors
raised by `Condition` handlers. -/
def conditionTypeName : String := "&jsongrep::query::Condition"

/-- `std::any::type_name::<&query::QueryCondition>()`. -/
def queryConditionTypeName : String := "&jsongrep::query::QueryCondition"

/-- `error::ErrorCode`, restricted to the variants the core evaluation can
produce (`Json`/`Io`/`FilteredByQuery`/`InvalidOption` belong to the excluded
CLI layer). -/
inductive ErrorCode where
  | invalidRegex (pattern : String)
  | unreachable
  | typeMismatch (got want by_ : String)
  | noChildren (by_ : String)
  | matcherTypeMismatch (matcherType matcherValue target by_ : String)
  | invalidTarget (pointer value : String)
  | invalidPointer (pointer value : String)
deriving DecidableEq, Repr

/-! ## Pattern matcher (`src/eval/matcher.rs`) -/

/-- `hay` begins with `needle`. -/
def listStarts : List Char → List Char → Bool
  | [], _ => true
  | _ :: _, [] => false
  | a :: as_, b :: bs => a == b && listStarts as_ bs

/-- `needle` occurs somewhere in the list. -/
def listHas (needle : List Char) : List Char → Bool
  | [] => needle.isEmpty
  | b :: bs => listStarts needle (b :: bs) || listHas needle bs

/-- `str::contains` with a string pattern (byte containment on valid UTF-8
coincides with character-sequence containment). -/
def strContains (hay pat : String) : Bool := listHas pat.data hay.data

/-- The external regex engine (`regex::Regex`), an external collaborator:
evaluation is parameterised over it.  `rt pattern candidate` returns the
match result, or `InvalidRegex` for a pattern that fails to compile. -/
abbrev RegexTester := String → String → Except ErrorCode Bool

/-- `Matcher::test`: `Raw` tests containment of the pattern in the candidate,
`Regex` delegates to the engine. -/
def matcherTest (rt : RegexTester) (t : MatchType) (pattern candidate : String) :
    Except ErrorCode Bool :=
  match t with
  | .contain => .ok (strContains candidate pattern)
  | .regex => rt pattern candidate

/-! ## Condition evaluator (`src/eval/cond.rs`) -/

mutual

/-- `Condition::eval` (`eval/cond.rs`): dispatch on the node kind.  The
comparison handlers require identical variants and fail with `TypeMismatch`
otherwise; `and`/`or` fail with `NoChildren` on an empty child list and
otherwise run the short-circuit loop. -/
def Condition.eval (rt : RegexTester) : Condition → SValue → Except ErrorCode Bool
  | .equal l, r => match l, r with
      | .null, .null => .ok true
      | .bool x, .bool y => .ok (x == y)
      | .int x, .int y => .ok (x == y)
      | .float x, .float y => .ok (ratAbsSubLeB |x| |y| eps)
      | .str x, .str y => .ok (x == y)
      | _, r => .error (.typeMismatch r.display valueTypeName conditionTypeName)
  | .greaterThan l, r => match l, r with
      | .bool x, .bool y => .ok (!x && y)
      | .int x, .int y => .ok (decide (x < y))
      | .float x, .float y => .ok (ratLtB x y)
      | .str x, .str y => .ok (strCmp x y == .lt)
      | _, r => .error (.typeMismatch r.display valueTypeName conditionTypeName)
  | .lessThan l, r => match l, r with
      | .bool x, .bool y => .ok (x && !y)
      | .int x, .int y => .ok (decide (y < x))
      | .float x, .float y => .ok (ratLtB y x)
      | .str x, .str y => .ok (strCmp x y == .gt)
      | _, r => .error (.typeMismatch r.display valueTypeName conditionTypeName)
  | .smatch l t, r => match l, r with
      | .str x, .str y => matcherTest rt t x y
      | l, r => .error (.matcherTypeMismatch t.display l.display r.display conditionTypeName)
  | .not c, r => match Condition.eval rt c r with
      | .ok b => .ok !b
      | .error e => .error e
  | .and cs, r =>
      if cs.isEmpty then .error (.noChildren conditionTypeName)
      else Condition.evalAnd rt cs r
  | .or cs, r =>
      if cs.isEmpty then .error (.noChildren conditionTypeName)
      else Condition.evalOr rt cs r

/-- The `and` loop: return the first error or first `Ok(false)`, else
`Ok(true)`. -/
def Condition.evalAnd (rt : RegexTester) : List Condition → SValue → Except ErrorCode Bool
  | [], _ => .ok true
  | c :: cs, r => match Condition.eval rt c r with
      | .ok true => Condition.evalAnd rt cs r
      | x => x

/-- The `or` loop: return the first error or first `Ok(true)`, else
`Ok(false)`. -/
def Condition.evalOr (rt : RegexTester) : List Condition → SValue → Except ErrorCode Bool
  | [], _ => .ok false
  | c :: cs, r => match Condition.eval rt c r with
      | .ok false => Condition.evalOr rt cs r
      | x => x

end

/-! ## Query evaluator (`src/eval/query_pair.rs`, `src/eval/query_condition.rs`) -/

/-- Wrap-around conversion of an `i64` to an `i32` (Rust's `as i32`). -/
def wrap32 (n : Int) : Int := (n + 2 ^ 31) % 2 ^ 32 - 2 ^ 31

/-- `fmt::Display for serde_json::Value`, idealised: numbers render their
exact value and strings are not escaped.  These strings only appear inside
`InvalidPointer`/`InvalidTarget` payloads; no claim depends on their text. -/
def jvDisplay : JValue → String
  | .null => "null"
  | .bool b => toString b
  | .num (.ofInt n) => toString n
  | .num (.ofFloat q) => toString q
  | .str s => "\"" ++ s ++ "\""
  | .arr xs => "[" ++ String.intercalate "," (xs.attach.map fun x => jvDisplay x.1) ++ "]"
  | .obj kvs => "\x7b" ++
      String.intercalate ","
        (kvs.attach.map fun kv => "\"" ++ kv.1.1 ++ "\":" ++ jvDisplay kv.1.2) ++ "\x7d"
decreasing_by
  · have h := List.sizeOf_lt_of_mem x.2
    simp only [JValue.arr.sizeOf_spec]
    omega
  · obtain ⟨⟨k, v⟩, hm⟩ := kv
    have h := List.sizeOf_lt_of_mem hm
    simp only [Prod.mk.sizeOf_spec] at h
    simp only [JValue.obj.sizeOf_spec]
    show sizeOf v < 1 + sizeOf kvs
    omega

/-- `QueryPair::to_value` (`eval/query_pair.rs`): resolve the pointer
(`InvalidPointer` if it has no target), then classify the target
(`InvalidTarget` for arrays and objects; numbers become `Int` via
`as_i64 as i32` when stored as an `i64`, else `Float` via `as_f64`). -/
def toValue (pointer : String) (v : JValue) : Except ErrorCode SValue :=
  match v.pointer pointer with
  | none => .error (.invalidPointer pointer (jvDisplay v))
  | some p => match p with
      | .null => .ok .null
      | .bool x => .ok (.bool x)
      | .num x =>
          if x.isI64 then .ok (.int (wrap32 x.asI64))
          else .ok (.float x.toRat)
      | .str x => .ok (.str x)
      | _ => .error (.invalidTarget pointer (jvDisplay v))

/-- `query::QueryPair`: a JSON pointer and the condition tested at it. -/
structure QueryPair where
  pointer : String
  condition : Condition

/-- `query::QueryCondition`. -/
inductive QueryCondition where
  | raw (p : QueryPair)
  | not (c : QueryCondition)
  | and (cs : List QueryCondition)
  | or (cs : List QueryCondition)

/-- `QueryPair::eval`: resolve the pointer to a scalar, then evaluate the
condition on it. -/
def QueryPair.eval (rt : RegexTester) (p : QueryPair) (v : JValue) : Except ErrorCode Bool :=
  match toValue p.pointer v with
  | .error e => .error e
  | .ok sv => p.condition.eval rt sv

mutual

/-- `QueryCondition::eval` (`eval/query_condition.rs`). -/
def QueryCondition.eval (rt : RegexTester) : QueryCondition → JValue → Except ErrorCode Bool
  | .raw p, v => p.eval rt v
  | .not c, v => match QueryCondition.eval rt c v with
      | .ok b => .ok !b
      | .error e => .error e
  | .and cs, v =>
      if cs.isEmpty then .error (.noChildren queryConditionTypeName)
      else QueryCondition.evalAnd rt cs v
  | .or cs, v =>
      if cs.isEmpty then .error (.noChildren queryConditionTypeName)
      else QueryCondition.evalOr rt cs v

/-- The `and` loop of the query evaluator. -/
def QueryCondition.evalAnd (rt : RegexTester) : List QueryCondition → JValue →
    Except ErrorCode Bool
  | [], _ => .ok true
  | c :: cs, v => match QueryCondition.eval rt c v with
      | .ok true => QueryCondition.evalAnd rt cs v
      | x => x

/-- The `or` loop of the query evaluator. -/
def QueryCondition.evalOr (rt : RegexTester) : List QueryCondition → JValue →
    Except ErrorCode Bool
  | [], _ => .ok false
  | c :: cs, v => match QueryCondition.eval rt c v with
      | .ok false => QueryCondition.evalOr rt cs v
      | x => x

end

/-- A trivial regex oracle used to instantiate closed statements. -/
def rtNone : RegexTester := fun p _ => .error (.invalidRegex p)

example : Condition.eval rtNone (.equal (.int 1)) (.int 1) = .ok true := by
  simp [Condition.eval]
example : Condition.eval rtNone (.smatch (.str "dwarf") .contain) (.str "white dwarf")
    = .ok true := by
  simp [Condition.eval, matcherTest, strContains]
  decide
example : Condition.eval rtNone (.and []) .null
    = .error (.noChildren conditionTypeName) := by
  simp [Condition.eval]

/-! ## Basic facts about the Sortable Value comparison -/

theorem eps_pos : 0 < eps := by rw [eps_eq]; norm_num

theorem natCompare_self (n : Nat) : compare n n = .eq := Nat.compare_eq_eq.mpr rfl

theorem strCmpAux_self (l : List Char) : strCmpAux l l = .eq := by
  induction l with
  | nil => rfl
  | cons a t ih => simp [strCmpAux, natCompare_self, ih]

theorem strCmp_self (s : String) : strCmp s s = .eq := strCmpAux_self s.data

theorem strCmpAux_swap (l₁ l₂ : List Char) :
    strCmpAux l₂ l₁ = (strCmpAux l₁ l₂).swap := by
  induction l₁ generalizing l₂ with
  | nil => cases l₂ <;> rfl
  | cons a t ih =>
      cases l₂ with
      | nil => rfl
      | cons b u =>
          simp only [strCmpAux, ← Nat.compare_swap a.toNat b.toNat]
          cases compare a.toNat b.toNat <;> simp [Ordering.swap, ih]

theorem strCmpAux_eq_iff (l₁ l₂ : List Char) : strCmpAux l₁ l₂ = .eq ↔ l₁ = l₂ := by
  induction l₁ generalizing l₂ with
  | nil => cases l₂ <;> simp [strCmpAux]
  | cons a t ih =>
      cases l₂ with
      | nil => simp [strCmpAux]
      | cons b u =>
          simp only [strCmpAux]
          rcases h : compare a.toNat b.toNat with _ | _ | _ <;> simp only [h]
          · constructor
            · intro hc
              exact absurd hc (by simp)
            · intro hc
              injection hc with h1 h2
              subst h1
              rw [natCompare_self] at h
              exact absurd h (by simp)
          · have hab : a = b := by
              rw [← Char.ofNat_toNat a, ← Char.ofNat_toNat b, Nat.compare_eq_eq.mp h]
            subst hab
            simp [ih]
          · constructor
            · intro hc
              exact absurd hc (by simp)
            · intro hc
              injection hc with h1 h2
              subst h1
              rw [natCompare_self] at h
              exact absurd h (by simp)

theorem strCmp_eq_iff (s t : String) : strCmp s t = .eq ↔ s = t := by
  rw [strCmp, strCmpAux_eq_iff]
  exact ⟨fun h => String.ext h, fun h => by rw [h]⟩

theorem pvEq_refl (a : JValue) : pvEq a a = true := by
  cases a with
  | null => rfl
  | bool b => simp [pvEq]
  | num n =>
      rw [pvEq_num]
      simp [eps_pos.le]
  | str s =>
      show (strCmp s s == Ordering.eq) = true
      rw [strCmp_self]
      rfl
  | arr xs => rfl
  | obj kvs => rfl

theorem pvEq_symm (a b : JValue) : pvEq a b = pvEq b a := by
  cases a <;> cases b <;> try rfl
  · rename_i x y
    show (x == y) = (y == x)
    cases x <;> cases y <;> rfl
  · rename_i x y
    rw [Bool.eq_iff_iff, pvEq_num, pvEq_num, abs_sub_comm]
  · rename_i x y
    show (strCmp x y == Ordering.eq) = (strCmp y x == Ordering.eq)
    rw [strCmp, strCmp, strCmpAux_swap]
    cases strCmpAux y.data x.data <;> rfl

theorem pvCmp_refl (a : JValue) : pvCmp a a = .eq := by
  simp [pvCmp, pvEq_refl]

theorem ratLtB_trichotomy {x y : ℚ} (hne : x ≠ y) : ratLtB x y = true ∨ ratLtB y x = true := by
  rcases lt_or_gt_of_ne hne with h | h
  · exact Or.inl (ratLtB_iff.mpr h)
  · exact Or.inr (ratLtB_iff.mpr h)

theorem pvEq_num_ne {x y : JNum} (h : pvEq (.num x) (.num y) = false) : x.toRat ≠ y.toRat := by
  intro hc
  rw [← Bool.not_eq_true, pvEq_num] at h
  exact h (by rw [hc]; simpa using eps_pos.le)

/-- Swapping the operands of the Sortable Value comparison swaps the result. -/
theorem pvCmp_swap (a b : JValue) : pvCmp b a = (pvCmp a b).swap := by
  by_cases he : pvEq a b = true
  · have he' : pvEq b a = true := by rw [pvEq_symm]; exact he
    have h1 : pvCmp a b = .eq := by simp [pvCmp, he]
    have h2 : pvCmp b a = .eq := by simp [pvCmp, he']
    rw [h1, h2]
    rfl
  · have he' : ¬ pvEq b a = true := by rw [pvEq_symm]; exact he
    simp only [pvCmp, if_neg he, if_neg he']
    cases a <;> cases b <;>
      first
        | rfl
        | (exact absurd rfl he)
        | (rename_i v
           cases v <;> first
             | rfl
             | (exact absurd rfl he))
        | (rename_i u v
           cases u <;> cases v <;> first
             | rfl
             | (exact absurd rfl he))
        | skip
    · rename_i x y
      have hfe : pvEq (JValue.num x) (JValue.num y) = false := by
        rw [← Bool.not_eq_true]
        exact he
      have hne : x.toRat ≠ y.toRat := pvEq_num_ne hfe
      by_cases hlt : ratLtB x.toRat y.toRat = true
      · have hnl : ratLtB y.toRat x.toRat = false := by
          rw [← Bool.not_eq_true, ratLtB_iff]
          exact not_lt_of_gt (ratLtB_iff.mp hlt)
        simp [hlt, hnl, Ordering.swap]
      · have hlt' : ratLtB x.toRat y.toRat = false := by
          rw [← Bool.not_eq_true]
          exact hlt
        have hyx : ratLtB y.toRat x.toRat = true := by
          rcases ratLtB_trichotomy hne with h | h
          · exact absurd h hlt
          · exact h
        simp [hlt', hyx, Ordering.swap]
    · rename_i x y
      show strCmp y x = (strCmp x y).swap
      rw [strCmp, strCmp, strCmpAux_swap]

theorem pvCmp_eq_iff_pvEq {a b : JValue} : pvCmp a b = .eq ↔ pvEq a b = true := by
  constructor
  · intro h
    by_contra hc
    rw [pvCmp.eq_def, if_neg hc] at h
    cases a <;> cases b <;>
      first
        | (exact hc rfl)
        | (simp at h; done)
        | (rename_i v
           cases v <;> first
             | (exact hc rfl)
             | (simp at h; done))
        | (rename_i u v
           cases u <;> cases v <;> first
             | (exact hc rfl)
             | (simp at h; done))
        | skip
    · rename_i x y
      have hs : strCmp x y = Ordering.eq := h
      have hxy : x = y := (strCmp_eq_iff x y).mp hs
      subst hxy
      refine hc ?_
      show (strCmp x x == Ordering.eq) = true
      rw [strCmp_self]
      rfl
  · intro h
    simp [pvCmp, h]

/-! ## Stable-sort theory for `isort` -/

theorem mem_oInsert {le : α → α → Bool} {a b : α} {l : List α} :
    b ∈ oInsert le a l ↔ b = a ∨ b ∈ l := by
  induction l with
  | nil => simp [oInsert]
  | cons c t ih =>
      rw [oInsert]
      by_cases h : le a c
      · rw [if_pos h]
        simp only [List.mem_cons]
      · rw [if_neg h]
        simp only [List.mem_cons, ih]
        tauto

theorem oInsert_perm (le : α → α → Bool) (a : α) (l : List α) :
    (oInsert le a l).Perm (a :: l) := by
  induction l with
  | nil => simp [oInsert]
  | cons c t ih =>
      rw [oInsert]
      by_cases h : le a c
      · rw [if_pos h]
      · rw [if_neg h]
        exact (ih.cons c).trans (List.Perm.swap a c t)

theorem isort_perm (le : α → α → Bool) (l : List α) : (isort le l).Perm l := by
  induction l with
  | nil => simp [isort]
  | cons a t ih => exact (oInsert_perm le a (isort le t)).trans (ih.cons a)

theorem mem_isort {le : α → α → Bool} {a : α} {l : List α} : a ∈ isort le l ↔ a ∈ l :=
  (isort_perm le l).mem_iff

/-- Sortedness with a Boolean comparator. -/
abbrev SortedB (le : α → α → Bool) (l : List α) : Prop :=
  l.Pairwise fun a b => le a b = true

theorem oInsert_sorted {le : α → α → Bool} {a : α} {l : List α}
    (htot : ∀ b ∈ l, le a b = true ∨ le b a = true)
    (htr : ∀ x ∈ l, ∀ y ∈ l, le a x = true → le x y = true → le a y = true)
    (hs : SortedB le l) : SortedB le (oInsert le a l) := by
  induction l with
  | nil => simp [oInsert]
  | cons c t ih =>
      rw [oInsert]
      by_cases h : le a c
      · rw [if_pos h]
        refine List.Pairwise.cons ?_ hs
        intro b hb
        rcases List.mem_cons.mp hb with rfl | hb'
        · exact h
        · exact htr c (List.mem_cons_self c t) b (List.mem_cons_of_mem c hb') h
            ((List.pairwise_cons.mp hs).1 b hb')
      · rw [if_neg h]
        have hc : ∀ b ∈ t, le c b = true := (List.pairwise_cons.mp hs).1
        refine List.Pairwise.cons ?_
          (ih (fun b hb => htot b (List.mem_cons_of_mem c hb))
            (fun x hx y hy => htr x (List.mem_cons_of_mem c hx) y (List.mem_cons_of_mem c hy))
            (List.pairwise_cons.mp hs).2)
        intro b hb
        rcases mem_oInsert.mp hb with rfl | hb'
        · rcases htot c (List.mem_cons_self c t) with h' | h'
          · exact absurd h' h
          · exact h'
        · exact hc b hb'

theorem isort_sorted {le : α → α → Bool} {l : List α}
    (htot : ∀ x ∈ l, ∀ y ∈ l, le x y = true ∨ le y x = true)
    (htr : ∀ x ∈ l, ∀ y ∈ l, ∀ z ∈ l, le x y = true → le y z = true → le x z = true) :
    SortedB le (isort le l) := by
  induction l with
  | nil => simp [isort]
  | cons a t ih =>
      rw [isort]
      refine oInsert_sorted ?_ ?_
        (ih (fun x hx y hy => htot x (List.mem_cons_of_mem a hx) y (List.mem_cons_of_mem a hy))
          (fun x hx y hy z hz => htr x (List.mem_cons_of_mem a hx) y (List.mem_cons_of_mem a hy)
            z (List.mem_cons_of_mem a hz)))
      · intro b hb
        exact htot a (List.mem_cons_self a t) b (List.mem_cons_of_mem a (mem_isort.mp hb))
      · intro x hx y hy hax hxy
        exact htr a (List.mem_cons_self a t) x (List.mem_cons_of_mem a (mem_isort.mp hx))
          y (List.mem_cons_of_mem a (mem_isort.mp hy)) hax hxy

theorem isort_of_sorted {le : α → α → Bool} {l : List α} (hs : SortedB le l) :
    isort le l = l := by
  induction l with
  | nil => rfl
  | cons a t ih =>
      rw [isort, ih (List.pairwise_cons.mp hs).2]
      cases t with
      | nil => rfl
      | cons b u =>
          rw [oInsert, if_pos ((List.pairwise_cons.mp hs).1 b (List.mem_cons_self b u))]

/-- Two sorted permutations of each other are equal, for a comparator that is
antisymmetric on the elements involved. -/
theorem sorted_perm_eq {le : α → α → Bool} :
    ∀ {l₁ l₂ : List α}, l₁.Perm l₂ →
      (∀ x ∈ l₁, ∀ y ∈ l₁, le x y = true → le y x = true → x = y) →
      SortedB le l₁ → SortedB le l₂ → l₁ = l₂ := by
  intro l₁
  induction l₁ with
  | nil =>
      intro l₂ hperm _ _ _
      exact (hperm.symm.eq_nil).symm
  | cons a t ih =>
      intro l₂ hperm hanti h₁ h₂
      cases l₂ with
      | nil => simp at hperm
      | cons b u =>
          have hab : a = b := by
            have haz : a ∈ b :: u := hperm.mem_iff.mp (List.mem_cons_self a t)
            have hbz : b ∈ a :: t := hperm.mem_iff.mpr (List.mem_cons_self b u)
            rcases List.mem_cons.mp haz with h1 | h1
            · exact h1
            · rcases List.mem_cons.mp hbz with h2 | h2
              · exact h2.symm
              · have hab1 : le a b = true := (List.pairwise_cons.mp h₁).1 b h2
                have hba1 : le b a = true := (List.pairwise_cons.mp h₂).1 a h1
                exact hanti a (List.mem_cons_self a t) b (List.mem_cons_of_mem a h2) hab1 hba1
          subst hab
          rw [ih hperm.cons_inv
            (fun x hx y hy => hanti x (List.mem_cons_of_mem a hx) y (List.mem_cons_of_mem a hy))
            (List.pairwise_cons.mp h₁).2 (List.pairwise_cons.mp h₂).2]

theorem oInsert_congr {le₁ le₂ : α → α → Bool} {a : α} {l : List α}
    (h : ∀ b ∈ l, le₁ a b = le₂ a b) : oInsert le₁ a l = oInsert le₂ a l := by
  induction l with
  | nil => rfl
  | cons c t ih =>
      rw [oInsert, oInsert, h c (List.mem_cons_self c t)]
      by_cases hc : le₂ a c
      · rw [if_pos hc, if_pos hc]
      · rw [if_neg hc, if_neg hc, ih fun b hb => h b (List.mem_cons_of_mem c hb)]

/-- Two comparators that agree on every (earlier, later) pair of the input
produce the same insertion sort. -/
theorem isort_congr {le₁ le₂ : α → α → Bool} {q : α → α → Prop} :
    ∀ {l : List α}, l.Pairwise q → (∀ a b, q a b → le₁ a b = le₂ a b) →
      isort le₁ l = isort le₂ l := by
  intro l
  induction l with
  | nil => intro _ _; rfl
  | cons a t ih =>
      intro hq h
      rw [isort, isort, ih (List.pairwise_cons.mp hq).2 h]
      exact oInsert_congr fun b hb =>
        h a b ((List.pairwise_cons.mp hq).1 b (mem_isort.mp hb))

/-! ## The linearised composite order and the pass comparators -/

theorem ordSwap_eq_iff {o : Ordering} : o.swap = .eq ↔ o = .eq := by
  cases o <;> simp [Ordering.swap]

theorem ordSwap_eq_gt {o : Ordering} : o.swap = .gt ↔ o = .lt := by
  cases o <;> simp [Ordering.swap]

theorem ordSwap_eq_lt {o : Ordering} : o.swap = .lt ↔ o = .gt := by
  cases o <;> simp [Ordering.swap]

theorem passCmp_swap (o : Order) (i : Nat) (a b : Pairs) :
    passCmp o i b a = (passCmp o i a b).swap := by
  cases o
  · exact pvCmp_swap (keyAt i a) (keyAt i b)
  · exact pvCmp_swap (keyAt i b) (keyAt i a)

theorem passCmp_refl (o : Order) (i : Nat) (a : Pairs) : passCmp o i a a = .eq := by
  cases o <;> exact pvCmp_refl _

/-- Sequential stable passes over the first `k` criteria. -/
def pairsSortK (settings : List PairSetting) (k : Nat) (l : List Pairs) : List Pairs :=
  (List.range k).foldl (sortPass settings) l

theorem pairsSort_eq_K (settings : List PairSetting) (l : List Pairs) :
    pairsSort settings l = pairsSortK settings settings.length l := rfl

theorem pairsSortK_succ (settings : List PairSetting) (k : Nat) (l : List Pairs) :
    pairsSortK settings (k + 1) l = sortPass settings (pairsSortK settings k l) k := by
  rw [pairsSortK, pairsSortK, List.range_succ, List.foldl_append]
  rfl

/-- Composite comparator restricted to the first `k` criteria. -/
def compCmpK (settings : List PairSetting) (k : Nat) (a b : Pairs) : Ordering :=
  (List.range k).foldl
    (fun acc i =>
      match passCmp (orderAt settings i) i a b with
      | .eq => acc
      | o => o) .eq

theorem compCmp_eq_K (settings : List PairSetting) (a b : Pairs) :
    compCmp settings a b = compCmpK settings settings.length a b := rfl

theorem compCmpK_succ (settings : List PairSetting) (k : Nat) (a b : Pairs) :
    compCmpK settings (k + 1) a b =
      match passCmp (orderAt settings k) k a b with
      | .eq => compCmpK settings k a b
      | o => o := by
  rw [compCmpK, compCmpK, List.range_succ, List.foldl_append]
  rfl

theorem compCmpK_swap (settings : List PairSetting) (k : Nat) (a b : Pairs) :
    compCmpK settings k b a = (compCmpK settings k a b).swap := by
  induction k with
  | zero => rfl
  | succ k ih =>
      rw [compCmpK_succ, compCmpK_succ, passCmp_swap]
      rcases h : passCmp (orderAt settings k) k a b with _ | _ | _ <;>
        simp [Ordering.swap, ih]

theorem compCmpK_refl (settings : List PairSetting) (k : Nat) (a : Pairs) :
    compCmpK settings k a a = .eq := by
  induction k with
  | zero => rfl
  | succ k ih => rw [compCmpK_succ, passCmp_refl]; exact ih

/-- The linearised composite order over the first `k` criteria: composite
comparison first, original insertion index as the final tie break.  This is a
proof device: on index-distinct elements it is a genuine linear order. -/
def leStar (settings : List PairSetting) (k : Nat) (a b : Pairs) : Bool :=
  match compCmpK settings k a b with
  | .lt => true
  | .eq => decide (a.index ≤ b.index)
  | .gt => false

theorem leStar_succ (settings : List PairSetting) (k : Nat) (a b : Pairs) :
    leStar settings (k + 1) a b =
      match passCmp (orderAt settings k) k a b with
      | .lt => true
      | .eq => leStar settings k a b
      | .gt => false := by
  rw [leStar, compCmpK_succ]
  rcases h : passCmp (orderAt settings k) k a b with _ | _ | _ <;> rfl

theorem leStar_refl (settings : List PairSetting) (k : Nat) (a : Pairs) :
    leStar settings k a a = true := by
  rw [leStar, compCmpK_refl]
  simp

theorem leStar_total (settings : List PairSetting) (k : Nat) (a b : Pairs) :
    leStar settings k a b = true ∨ leStar settings k b a = true := by
  rcases h : compCmpK settings k a b with _ | _ | _
  · left
    rw [leStar, h]
  · have h' : compCmpK settings k b a = .eq := by rw [compCmpK_swap, h]; rfl
    rw [leStar, h, leStar, h']
    simp only [decide_eq_true_eq]
    omega
  · right
    have h' : compCmpK settings k b a = .lt := by rw [compCmpK_swap, h]; rfl
    rw [leStar, h']

theorem leStar_antisymm {settings : List PairSetting} {k : Nat} {a b : Pairs}
    (h₁ : leStar settings k a b = true) (h₂ : leStar settings k b a = true) :
    a.index = b.index := by
  rcases h : compCmpK settings k a b with _ | _ | _
  · have h' : compCmpK settings k b a = .gt := by rw [compCmpK_swap, h]; rfl
    rw [leStar, h'] at h₂
    exact absurd h₂ (by simp)
  · have h' : compCmpK settings k b a = .eq := by rw [compCmpK_swap, h]; rfl
    rw [leStar, h] at h₁
    rw [leStar, h'] at h₂
    simp only [decide_eq_true_eq] at h₁ h₂
    omega
  · rw [leStar, h] at h₁
    exact absurd h₁ (by simp)

/-- Transitivity on the elements of a list. -/
abbrev TransOnB (le : α → α → Bool) (l : List α) : Prop :=
  ∀ x ∈ l, ∀ y ∈ l, ∀ z ∈ l, le x y = true → le y z = true → le x z = true

theorem passLe_eq_true_iff (settings : List PairSetting) (i : Nat) (a b : Pairs) :
    passLe settings i a b = true ↔ passCmp (orderAt settings i) i a b ≠ .gt := by
  rw [passLe]
  rcases h : passCmp (orderAt settings i) i a b with _ | _ | _ <;> simp [h] <;> decide

theorem passCmp_lt_iff (settings : List PairSetting) (i : Nat) (a b : Pairs) :
    passCmp (orderAt settings i) i a b = .lt ↔
      passLe settings i a b = true ∧ passLe settings i b a = false := by
  constructor
  · intro h
    refine ⟨(passLe_eq_true_iff _ _ _ _).mpr (by rw [h]; simp), ?_⟩
    rw [← Bool.not_eq_true, passLe_eq_true_iff, not_ne_iff, passCmp_swap, h]
    rfl
  · rintro ⟨_, h2⟩
    have hg : passCmp (orderAt settings i) i b a = .gt := by
      rw [← not_ne_iff, ← passLe_eq_true_iff]
      simp [h2]
    rw [passCmp_swap] at hg
    exact ordSwap_eq_gt.mp hg

theorem passCmp_eq2_iff (settings : List PairSetting) (i : Nat) (a b : Pairs) :
    passCmp (orderAt settings i) i a b = .eq ↔
      passLe settings i a b = true ∧ passLe settings i b a = true := by
  constructor
  · intro h
    refine ⟨(passLe_eq_true_iff _ _ _ _).mpr (by rw [h]; simp),
      (passLe_eq_true_iff _ _ _ _).mpr ?_⟩
    rw [passCmp_swap, h]
    simp [Ordering.swap]
  · rintro ⟨h1, h2⟩
    have ha := (passLe_eq_true_iff _ _ _ _).mp h1
    have hb := (passLe_eq_true_iff _ _ _ _).mp h2
    rw [passCmp_swap] at hb
    rcases hv : passCmp (orderAt settings i) i a b with _ | _ | _
    · rw [hv] at hb
      exact absurd rfl hb
    · rfl
    · exact absurd hv ha

theorem leStar_zero (settings : List PairSetting) (a b : Pairs) :
    leStar settings 0 a b = decide (a.index ≤ b.index) := rfl

theorem transOnB_of_perm {le : α → α → Bool} {l₁ l₂ : List α} (h : l₁.Perm l₂)
    (ht : TransOnB le l₁) : TransOnB le l₂ := fun x hx y hy z hz =>
  ht x (h.mem_iff.mpr hx) y (h.mem_iff.mpr hy) z (h.mem_iff.mpr hz)

/-- The linearised composite order is transitive on any list on which every
criterion comparator is transitive. -/
theorem leStar_transOn (settings : List PairSetting) (l : List Pairs) :
    ∀ k, (∀ i ∈ List.range k, TransOnB (passLe settings i) l) →
      TransOnB (leStar settings k) l := by
  intro k
  induction k with
  | zero =>
      intro _ x _ y _ z _ h1 h2
      rw [leStar_zero] at h1 h2 ⊢
      simp only [decide_eq_true_eq] at h1 h2 ⊢
      omega
  | succ k ih =>
      intro htr x hx y hy z hz h1 h2
      have ihk := ih fun i hi =>
        htr i (List.mem_range.mpr (Nat.lt_succ_of_lt (List.mem_range.mp hi)))
      have htrk := htr k (List.mem_range.mpr (Nat.lt_succ_self k))
      rcases hxy : passCmp (orderAt settings k) k x y with _ | _ | _
      · rcases hyz : passCmp (orderAt settings k) k y z with _ | _ | _
        · have hx1 := (passCmp_lt_iff _ _ _ _).mp hxy
          have hy1 := (passCmp_lt_iff _ _ _ _).mp hyz
          have hxz : passCmp (orderAt settings k) k x z = .lt := by
            refine (passCmp_lt_iff _ _ _ _).mpr ⟨htrk x hx y hy z hz hx1.1 hy1.1, ?_⟩
            by_contra hzx
            rw [Bool.not_eq_false] at hzx
            have hzy := htrk z hz x hx y hy hzx hx1.1
            rw [hy1.2] at hzy
            exact absurd hzy (by simp)
          simp only [leStar_succ, hxz]
        · have hx1 := (passCmp_lt_iff _ _ _ _).mp hxy
          have hy1 := (passCmp_eq2_iff _ _ _ _).mp hyz
          have hxz : passCmp (orderAt settings k) k x z = .lt := by
            refine (passCmp_lt_iff _ _ _ _).mpr ⟨htrk x hx y hy z hz hx1.1 hy1.1, ?_⟩
            by_contra hzx
            rw [Bool.not_eq_false] at hzx
            have hyx := htrk y hy z hz x hx hy1.1 hzx
            rw [hx1.2] at hyx
            exact absurd hyx (by simp)
          simp only [leStar_succ, hxz]
        · simp only [leStar_succ, hyz] at h2
          exact Bool.noConfusion h2
      · rcases hyz : passCmp (orderAt settings k) k y z with _ | _ | _
        · have hx1 := (passCmp_eq2_iff _ _ _ _).mp hxy
          have hy1 := (passCmp_lt_iff _ _ _ _).mp hyz
          have hxz : passCmp (orderAt settings k) k x z = .lt := by
            refine (passCmp_lt_iff _ _ _ _).mpr ⟨htrk x hx y hy z hz hx1.1 hy1.1, ?_⟩
            by_contra hzx
            rw [Bool.not_eq_false] at hzx
            have hzy := htrk z hz x hx y hy hzx hx1.1
            rw [hy1.2] at hzy
            exact absurd hzy (by simp)
          simp only [leStar_succ, hxz]
        · have hx1 := (passCmp_eq2_iff _ _ _ _).mp hxy
          have hy1 := (passCmp_eq2_iff _ _ _ _).mp hyz
          have hxz : passCmp (orderAt settings k) k x z = .eq :=
            (passCmp_eq2_iff _ _ _ _).mpr
              ⟨htrk x hx y hy z hz hx1.1 hy1.1, htrk z hz y hy x hx hy1.2 hx1.2⟩
          simp only [leStar_succ, hxy] at h1
          simp only [leStar_succ, hyz] at h2
          simp only [leStar_succ, hxz]
          exact ihk x hx y hy z hz h1 h2
        · simp only [leStar_succ, hyz] at h2
          exact Bool.noConfusion h2
      · simp only [leStar_succ, hxy] at h1
        exact Bool.noConfusion h1

/-! ## The builder produces consecutive insertion indexes -/

theorem foldl_builderAdd_indexes (settings : List PairSetting) :
    ∀ (values : List JValue) (acc : List Pairs),
      indexes (values.foldl (builderAdd settings) acc) =
        indexes acc ++ List.range' acc.length values.length := by
  intro values
  induction values with
  | nil =>
      intro acc
      simp [indexes]
  | cons v vs ih =>
      intro acc
      rw [List.foldl_cons, ih]
      rw [show builderAdd settings acc v =
        acc ++ [⟨acc.length, settings.map fun s => (v.pointer s.pointer).getD JValue.null⟩]
        from rfl]
      rw [indexes, List.map_append, List.length_append]
      simp only [List.map_cons, List.map_nil, List.length_cons, List.length_nil]
      rw [List.range'_succ]
      simp [indexes, List.append_assoc]

theorem buildList_indexes (settings : List PairSetting) (values : List JValue) :
    indexes (buildList settings values) = List.range values.length := by
  rw [buildList, foldl_builderAdd_indexes]
  simp [indexes, List.range_eq_range']

theorem buildList_pairwise_idx (settings : List PairSetting) (values : List JValue) :
    (buildList settings values).Pairwise fun a b => a.index < b.index := by
  have h := List.pairwise_lt_range values.length
  rw [← buildList_indexes settings values, indexes] at h
  exact (List.pairwise_map.mp h)

theorem buildList_idx_inj (settings : List PairSetting) (values : List JValue) :
    ∀ x ∈ buildList settings values, ∀ y ∈ buildList settings values,
      x.index = y.index → x = y := by
  have h : ((buildList settings values).map (·.index)).Nodup := by
    show (indexes (buildList settings values)).Nodup
    rw [buildList_indexes]
    exact List.nodup_range _
  exact List.inj_on_of_nodup_map h

/-! ## Sequential per-criterion sorting equals sorting by the linearised
composite order -/

theorem pairsSortK_eq_isort_leStar (settings : List PairSetting) (L : List Pairs)
    (hidx : L.Pairwise fun a b => a.index < b.index)
    (hinj : ∀ x ∈ L, ∀ y ∈ L, x.index = y.index → x = y)
    (htr : ∀ i ∈ List.range settings.length, TransOnB (passLe settings i) L) :
    ∀ k, k ≤ settings.length → pairsSortK settings k L = isort (leStar settings k) L := by
  intro k
  induction k with
  | zero =>
      intro _
      simp only [pairsSortK, List.range_zero, List.foldl_nil]
      refine (isort_of_sorted ?_).symm
      refine hidx.imp ?_
      intro a b hab
      rw [leStar_zero]
      simpa using Nat.le_of_lt hab
  | succ k ih =>
      intro hk1
      have hkR : k ∈ List.range settings.length := List.mem_range.mpr hk1
      have htrk' : ∀ i ∈ List.range k, TransOnB (passLe settings i) L := fun i hi =>
        htr i (List.mem_range.mpr
          (Nat.lt_of_lt_of_le (List.mem_range.mp hi) (Nat.le_of_succ_le hk1)))
      have htrk1 : ∀ i ∈ List.range (k + 1), TransOnB (passLe settings i) L := fun i hi =>
        htr i (List.mem_range.mpr (Nat.lt_of_lt_of_le (List.mem_range.mp hi) hk1))
      have hs := ih (Nat.le_of_succ_le hk1)
      rw [pairsSortK_succ, hs]
      have hperm : (isort (leStar settings k) L).Perm L := isort_perm _ _
      have hsorted : SortedB (leStar settings k) (isort (leStar settings k) L) :=
        isort_sorted (fun x _ y _ => leStar_total settings k x y)
          (leStar_transOn settings L k htrk')
      have h1 : sortPass settings (isort (leStar settings k) L) k =
          isort (leStar settings (k + 1)) (isort (leStar settings k) L) := by
        rw [sortPass]
        refine isort_congr hsorted ?_
        intro a b hab
        rcases hc : passCmp (orderAt settings k) k a b with _ | _ | _
        · have hle : passLe settings k a b = true :=
            (passLe_eq_true_iff _ _ _ _).mpr (by rw [hc]; simp)
          rw [hle, leStar_succ, hc]
        · have hle : passLe settings k a b = true :=
            (passLe_eq_true_iff _ _ _ _).mpr (by rw [hc]; simp)
          rw [hle, leStar_succ, hc, hab]
        · have hle : passLe settings k a b = false := by
            rw [← Bool.not_eq_true, passLe_eq_true_iff, not_ne_iff]
            exact hc
          rw [hle, leStar_succ, hc]
      rw [h1]
      refine @sorted_perm_eq _ (leStar settings (k + 1)) _ _
        ((isort_perm _ _).trans (hperm.trans (isort_perm _ L).symm)) ?_ ?_ ?_
      · intro x hx y hy hxy hyx
        have hx' : x ∈ L := hperm.mem_iff.mp (mem_isort.mp hx)
        have hy' : y ∈ L := hperm.mem_iff.mp (mem_isort.mp hy)
        exact hinj x hx' y hy' (leStar_antisymm hxy hyx)
      · exact isort_sorted (fun x _ y _ => leStar_total settings (k + 1) x y)
          (transOnB_of_perm hperm.symm (leStar_transOn settings L (k + 1) htrk1))
      · exact isort_sorted (fun x _ y _ => leStar_total settings (k + 1) x y)
          (leStar_transOn settings L (k + 1) htrk1)

/-- The composite-comparator sort also equals sorting by the linearised
composite order, on an index-sorted input. -/
theorem compSort_eq_isort_leStar (settings : List PairSetting) (L : List Pairs)
    (hidx : L.Pairwise fun a b => a.index < b.index) :
    isort (compLe settings) L = isort (leStar settings settings.length) L := by
  refine isort_congr hidx ?_
  intro a b hab
  rw [compLe, compCmp_eq_K]
  rcases hc : compCmpK settings settings.length a b with _ | _ | _
  · rw [leStar, hc]
    rfl
  · rw [leStar, hc, decide_eq_true (Nat.le_of_lt hab)]
    decide
  · rw [leStar, hc]
    rfl

/-- Sequential per-criterion stable sorting and single-pass sorting by the
composite comparator produce the same list whenever every criterion
comparator is transitive on the records. -/
theorem pairsSort_eq_compSort (settings : List PairSetting) (values : List JValue)
    (htr : ∀ i ∈ List.range settings.length,
      TransOnB (passLe settings i) (buildList settings values)) :
    pairsSort settings (buildList settings values) =
      isort (compLe settings) (buildList settings values) := by
  rw [pairsSort_eq_K,
    pairsSortK_eq_isort_leStar settings (buildList settings values)
      (buildList_pairwise_idx settings values) (buildList_idx_inj settings values) htr
      settings.length (Nat.le_refl _),
    compSort_eq_isort_leStar settings (buildList settings values)
      (buildList_pairwise_idx settings values)]

/-! ## Per-claim support lemmas for the ordering engine -/

theorem foldl_congr_mem {β : Type _} {f g : β → Nat → β} :
    ∀ {is : List Nat} {b : β}, (∀ x, ∀ i ∈ is, f x i = g x i) →
      is.foldl f b = is.foldl g b := by
  intro is
  induction is with
  | nil => intro b _; rfl
  | cons i t ih =>
      intro b h
      rw [List.foldl_cons, List.foldl_cons, h b i (List.mem_cons_self i t)]
      exact ih fun x j hj => h x j (List.mem_cons_of_mem i hj)

theorem sortPass_append (settings : List PairSetting) (c : PairSetting) {i : Nat}
    (hi : i < settings.length) (l : List Pairs) :
    sortPass (settings ++ [c]) l i = sortPass settings l i := by
  have horder : orderAt (settings ++ [c]) i = orderAt settings i := by
    rw [orderAt, orderAt, List.getD_append _ _ _ _ hi]
  rw [sortPass, sortPass]
  congr 1
  funext a b
  rw [passLe, passLe, horder]

theorem orderAt_append_last (settings : List PairSetting) (c : PairSetting) :
    orderAt (settings ++ [c]) settings.length = c.order := by
  rw [orderAt, List.getD_append_right _ _ _ _ (Nat.le_refl _), Nat.sub_self]
  rfl

/-- Appending one criterion appends exactly one final stable pass, sorting by
that criterion's key only (ascending or its exact reverse, per direction). -/
theorem pairsSort_append_last (settings : List PairSetting) (c : PairSetting) (l : List Pairs) :
    pairsSort (settings ++ [c]) l =
      isort (fun a b => passCmp c.order settings.length a b != .gt) (pairsSort settings l) := by
  rw [pairsSort, pairsSort, List.length_append, List.length_singleton, List.range_succ,
    List.foldl_append,
    foldl_congr_mem fun x i hi => sortPass_append settings c (List.mem_range.mp hi) x,
    List.foldl_cons, List.foldl_nil, sortPass]
  congr 1
  funext a b
  rw [passLe, orderAt_append_last]

theorem pairsSortK_perm (settings : List PairSetting) :
    ∀ (k : Nat) (l : List Pairs), (pairsSortK settings k l).Perm l := by
  intro k
  induction k with
  | zero => intro l; exact List.Perm.refl l
  | succ k ih =>
      intro l
      rw [pairsSortK_succ, sortPass]
      exact (isort_perm _ _).trans (ih l)

theorem pairsSort_perm (settings : List PairSetting) (l : List Pairs) :
    (pairsSort settings l).Perm l := pairsSortK_perm settings settings.length l

/-! # Claim theorems for the ordering engine -/

/-- C1: the Ordering Engine applies one stable sort pass per criterion in
declared order; appending a criterion appends exactly one final stable pass
sorting by that criterion's key only (ascending per the Sortable Value order
or its exact reverse for descending), so the last-declared criterion is the
dominant key; in particular the records `{i:0,j:1}#0, {i:1,j:1}#1,
{i:1,j:0}#2, {i:0,j:0}#3` sorted with criteria `[/i asc, /j asc]` yield index
order `[3,2,0,1]`, and with `[/j asc, /i asc]` yield `[3,0,2,1]`. -/
theorem claim1_sequential_passes_last_criterion_dominant :
    (∀ (settings : List PairSetting) (c : PairSetting) (l : List Pairs),
      pairsSort (settings ++ [c]) l =
        isort (fun a b => passCmp c.order settings.length a b != .gt) (pairsSort settings l)) ∧
    sortedIndexes [⟨"/i", .asc⟩, ⟨"/j", .asc⟩] recsIJ = [3, 2, 0, 1] ∧
    sortedIndexes [⟨"/j", .asc⟩, ⟨"/i", .asc⟩] recsIJ = [3, 0, 2, 1] :=
  ⟨pairsSort_append_last, by decide, by decide⟩

/-- C2 counterexample: on three records whose keys are at machine-epsilon
scale (`/a` values `2ε, 0, 0`; `/b` values `0, 2ε, ε`), the sequential
per-criterion stable sort and the single composite-comparator stable sort
disagree: the former yields `[1, 2, 0]`, the latter `[0, 1, 2]`.  The
`ε`-tolerant Sortable-Value equality is not transitive, so the composite
comparator is not a preorder there and the classical equivalence breaks. -/
theorem claim2_counterexample :
    sortedIndexes [⟨"/a", .asc⟩, ⟨"/b", .asc⟩] recsEps = [1, 2, 0] ∧
    compSortedIndexes [⟨"/a", .asc⟩, ⟨"/b", .asc⟩] recsEps = [0, 1, 2] ∧
    sortedIndexes [⟨"/a", .asc⟩, ⟨"/b", .asc⟩] recsEps ≠
      compSortedIndexes [⟨"/a", .asc⟩, ⟨"/b", .asc⟩] recsEps :=
  ⟨by decide, by decide, by decide⟩

/-- C2 (amended): the sequential per-criterion stable sort produces exactly
the same final permutation as a single stable sort with the composite
comparator (criteria in reverse declared order, falling through on
Sortable-Value equality), provided every criterion's comparator is
transitive on the given records — in particular whenever no two distinct
numeric keys of a criterion lie within machine epsilon of each other. -/
theorem claim2_sequential_equals_composite (settings : List PairSetting)
    (values : List JValue)
    (htr : ∀ i ∈ List.range settings.length,
      TransOnB (passLe settings i) (buildList settings values)) :
    sortedIndexes settings values = compSortedIndexes settings values := by
  rw [sortedIndexes, compSortedIndexes, pairsSort_eq_compSort settings values htr]

/-- C2 witness: the amended equivalence applied to the four-record `i`/`j`
example, whose integer-valued keys make every pass comparator transitive. -/
theorem claim2_witness :
    sortedIndexes [⟨"/i", .asc⟩, ⟨"/j", .asc⟩] recsIJ =
      compSortedIndexes [⟨"/i", .asc⟩, ⟨"/j", .asc⟩] recsIJ :=
  claim2_sequential_equals_composite _ recsIJ (by decide)

/-- C7: in the ordering domain an unresolvable pointer never produces an
error: `PairsListBuilder::add` is total, and the record it appends carries
the Sortable Value `Null` for every criterion whose pointer does not resolve;
and `Null` compares `Less` against every value outside the `Null` group. -/
theorem claim7_unresolvable_pointer_is_null :
    (∀ (settings : List PairSetting) (list : List Pairs) (value : JValue) (i : Nat),
      i < settings.length →
      value.pointer ((settings.getD i ⟨"", .asc⟩).pointer) = none →
      ∃ p : Pairs, builderAdd settings list value = list ++ [p] ∧ p.index = list.length ∧
        keyAt i p = JValue.null) ∧
    (∀ v : JValue, pvEq JValue.null v = false → pvCmp JValue.null v = .lt) := by
  constructor
  · intro settings list value i hi hnone
    refine ⟨_, rfl, rfl, ?_⟩
    have hlen : i < (settings.map fun s => (value.pointer s.pointer).getD JValue.null).length := by
      simpa using hi
    rw [keyAt, List.getD_eq_getElem _ _ hlen, List.getElem_map]
    rw [List.getD_eq_getElem _ _ hi] at hnone
    rw [hnone]
    rfl
  · intro v hv
    rw [pvCmp.eq_def, if_neg (by simp [hv])]

/-- C7 witness: the pointer `/x` does not resolve in `{"i": 0}`; the added
record carries `Null` there, and `Null` sorts before e.g. `Bool`. -/
theorem claim7_witness :
    (∃ p : Pairs,
      builderAdd [⟨"/x", .asc⟩] [] (.obj [("i", .num (.ofInt 0))]) = [] ++ [p] ∧
      p.index = 0 ∧ keyAt 0 p = JValue.null) ∧
    pvCmp JValue.null (.bool true) = .lt :=
  ⟨claim7_unresolvable_pointer_is_null.1 [⟨"/x", .asc⟩] [] (.obj [("i", .num (.ofInt 0))]) 0
      (by decide) (by rfl),
    claim7_unresolvable_pointer_is_null.2 (.bool true) (by decide)⟩

/-- C9: the result accessor returns a permutation of the insertion indexes
`0..n-1`; the record slots themselves are only permuted, never altered; and
with zero criteria the result is the identity permutation. -/
theorem claim9_result_is_permutation :
    ∀ (settings : List PairSetting) (values : List JValue),
      (pairsSort settings (buildList settings values)).Perm (buildList settings values) ∧
      (sortedIndexes settings values).Perm (List.range values.length) ∧
      (settings = [] → sortedIndexes settings values = List.range values.length) := by
  intro settings values
  refine ⟨pairsSort_perm settings (buildList settings values), ?_, ?_⟩
  · have h := (pairsSort_perm settings (buildList settings values)).map (·.index)
    rw [show (buildList settings values).map (·.index) = List.range values.length from
      buildList_indexes settings values] at h
    exact h
  · intro h
    subst h
    exact buildList_indexes [] values

/-- C9 witness: at zero criteria and one record the result is `[0]`. -/
theorem claim9_witness :
    (sortedIndexes [] [JValue.null]).Perm (List.range 1) ∧
    sortedIndexes [] [JValue.null] = List.range 1 :=
  ⟨(claim9_result_is_permutation [] [JValue.null]).2.1,
    (claim9_result_is_permutation [] [JValue.null]).2.2 rfl⟩

/-! ## Variant ranking and restricted transitivity of the Sortable order -/

/-- Position of a variant in the ascending ladder
`Null < Array < Object < Bool < Number < String`. -/
def varRank : JValue → Nat
  | .null => 0
  | .arr _ => 1
  | .obj _ => 2
  | .bool _ => 3
  | .num _ => 4
  | .str _ => 5

theorem pvEq_rank_ne {a b : JValue} (h : varRank a ≠ varRank b) : pvEq a b = false := by
  cases a <;> cases b <;> first
    | rfl
    | (exact absurd rfl h)

theorem pvCmp_rank_lt {a b : JValue} (h : varRank a < varRank b) : pvCmp a b = .lt := by
  have he : ¬ pvEq a b = true := by
    rw [pvEq_rank_ne (Nat.ne_of_lt h)]
    simp
  rw [pvCmp.eq_def, if_neg he]
  cases a <;> cases b <;>
    first
      | rfl
      | (simp [varRank] at h
         done)
      | (rename_i v
         cases v <;> rfl)
      | (rename_i u v
         cases u <;> cases v <;> rfl)

theorem pvCmp_rank_gt {a b : JValue} (h : varRank b < varRank a) : pvCmp a b = .gt := by
  rw [pvCmp_swap b a, pvCmp_rank_lt h]
  rfl

theorem rank_le_of_pvCmp_ne_gt {a b : JValue} (h : pvCmp a b ≠ .gt) :
    varRank a ≤ varRank b := by
  by_contra hc
  push_neg at hc
  exact h (pvCmp_rank_gt hc)

/-- Exact rational equality by cross multiplication (kernel-reducible). -/
def ratEqB (x y : ℚ) : Bool := decide (x.num * (y.den : Int) = y.num * (x.den : Int))

theorem ratEqB_iff {x y : ℚ} : ratEqB x y = true ↔ x = y := by
  rw [ratEqB, decide_eq_true_iff]
  constructor
  · intro h
    have hx : (x.den : ℚ) ≠ 0 := by exact_mod_cast x.den_pos.ne'
    have hy : (y.den : ℚ) ≠ 0 := by exact_mod_cast y.den_pos.ne'
    have hxq : (x.num : ℚ) = x * (x.den : ℚ) := (div_eq_iff hx).mp (Rat.num_div_den x)
    have hyq : (y.num : ℚ) = y * (y.den : ℚ) := (div_eq_iff hy).mp (Rat.num_div_den y)
    have hq : (x.num : ℚ) * (y.den : ℚ) = (y.num : ℚ) * (x.den : ℚ) := by exact_mod_cast h
    have h2 : x * ((x.den : ℚ) * (y.den : ℚ)) = y * ((x.den : ℚ) * (y.den : ℚ)) := by
      calc x * ((x.den : ℚ) * (y.den : ℚ)) = (x.num : ℚ) * (y.den : ℚ) := by rw [hxq]; ring
        _ = (y.num : ℚ) * (x.den : ℚ) := hq
        _ = y * ((x.den : ℚ) * (y.den : ℚ)) := by rw [hyq]; ring
    exact mul_right_cancel₀ (mul_ne_zero hx hy) h2
  · intro h
    subst h
    rfl

/-- Machine-epsilon separation: two Number values either agree exactly or
differ by more than `ε`; any other pair is unconstrained.  On separated
numbers the `ε`-tolerant equality coincides with exact equality. -/
def numSepB : JValue → JValue → Bool
  | .num x, .num y => ratEqB x.toRat y.toRat || !(ratAbsSubLeB x.toRat y.toRat eps)
  | _, _ => true

theorem numSepB_symm (a b : JValue) : numSepB a b = numSepB b a := by
  cases a <;> cases b <;> try rfl
  rename_i x y
  show (ratEqB x.toRat y.toRat || !(ratAbsSubLeB x.toRat y.toRat eps)) =
    (ratEqB y.toRat x.toRat || !(ratAbsSubLeB y.toRat x.toRat eps))
  have h1 : ratEqB x.toRat y.toRat = ratEqB y.toRat x.toRat := by
    rw [Bool.eq_iff_iff, ratEqB_iff, ratEqB_iff]
    exact eq_comm
  have h2 : ratAbsSubLeB x.toRat y.toRat eps = ratAbsSubLeB y.toRat x.toRat eps := by
    rw [Bool.eq_iff_iff, ratAbsSubLeB_iff, ratAbsSubLeB_iff, abs_sub_comm]
  rw [h1, h2]

theorem toRat_eq_of_sep_pvEq {x y : JNum} (hsep : numSepB (.num x) (.num y) = true)
    (h : pvEq (.num x) (.num y) = true) : x.toRat = y.toRat := by
  have hsep' : (ratEqB x.toRat y.toRat || !(ratAbsSubLeB x.toRat y.toRat eps)) = true := hsep
  rw [Bool.or_eq_true] at hsep'
  rcases hsep' with h1 | h1
  · exact ratEqB_iff.mp h1
  · have h' : ratAbsSubLeB x.toRat y.toRat eps = true := h
    rw [Bool.not_eq_true', h'] at h1
    exact Bool.noConfusion h1

/-- The number comparison rule of the Sortable order: equal within `ε`,
otherwise by exact numeric comparison. -/
theorem pvCmp_num (x y : JNum) :
    pvCmp (.num x) (.num y) =
      if |x.toRat - y.toRat| ≤ eps then .eq
      else if x.toRat < y.toRat then .lt else .gt := by
  by_cases hcl : |x.toRat - y.toRat| ≤ eps
  · rw [if_pos hcl]
    exact pvCmp_eq_iff_pvEq.mpr (pvEq_num.mpr hcl)
  · rw [if_neg hcl]
    have he : ¬ pvEq (.num x) (.num y) = true := fun h => hcl (pvEq_num.mp h)
    rw [pvCmp.eq_def, if_neg he]
    show (if ratLtB x.toRat y.toRat = true then Ordering.lt else Ordering.gt) = _
    by_cases hlt : x.toRat < y.toRat
    · rw [if_pos (ratLtB_iff.mpr hlt), if_pos hlt]
    · rw [if_neg (fun h => hlt (ratLtB_iff.mp h)), if_neg hlt]

/-- The string comparison rule of the Sortable order is plain lexicographic
comparison. -/
theorem pvCmp_str (x y : String) : pvCmp (.str x) (.str y) = strCmp x y := by
  by_cases he : pvEq (.str x) (.str y) = true
  · have hs : strCmp x y = .eq := by
      have h' : (strCmp x y == Ordering.eq) = true := he
      cases hsc : strCmp x y <;> rw [hsc] at h' <;>
        first
          | rfl
          | exact Bool.noConfusion h'
    rw [pvCmp.eq_def, if_pos he, hs]
  · rw [pvCmp.eq_def, if_neg he]

theorem numSepB_close_iff {x y : JNum} (hsep : numSepB (.num x) (.num y) = true) :
    |x.toRat - y.toRat| ≤ eps ↔ x.toRat = y.toRat := by
  constructor
  · intro h
    exact toRat_eq_of_sep_pvEq hsep (pvEq_num.mpr h)
  · intro h
    rw [h]
    simpa using eps_pos.le

/-- On `ε`-separated numbers the Sortable order is the exact numeric order. -/
theorem pvCmp_num_sep {x y : JNum} (hsep : numSepB (.num x) (.num y) = true) :
    (pvCmp (.num x) (.num y) = .eq ↔ x.toRat = y.toRat) ∧
    (pvCmp (.num x) (.num y) = .lt ↔ x.toRat < y.toRat) ∧
    (pvCmp (.num x) (.num y) = .gt ↔ y.toRat < x.toRat) := by
  rw [pvCmp_num]
  by_cases he : x.toRat = y.toRat
  · rw [if_pos ((numSepB_close_iff hsep).mpr he)]
    exact ⟨by simp [he], by simp [he], by simp [he]⟩
  · rw [if_neg fun h => he ((numSepB_close_iff hsep).mp h)]
    by_cases hlt : x.toRat < y.toRat
    · rw [if_pos hlt]
      exact ⟨by simp [he], by simp [hlt], by simp [lt_asymm hlt]⟩
    · rw [if_neg hlt]
      have hgt : y.toRat < x.toRat :=
        lt_of_le_of_ne (not_lt.mp hlt) fun h => he h.symm
      exact ⟨by simp [he], by simp [hlt], by simp [hgt]⟩

theorem strCmpAux_le_trans :
    ∀ (l₁ l₂ l₃ : List Char), strCmpAux l₁ l₂ ≠ .gt → strCmpAux l₂ l₃ ≠ .gt →
      strCmpAux l₁ l₃ ≠ .gt := by
  intro l₁
  induction l₁ with
  | nil =>
      intro l₂ l₃ _ _
      cases l₃ <;> simp [strCmpAux]
  | cons a t₁ ih =>
      intro l₂ l₃ h1 h2
      cases l₂ with
      | nil => exact absurd rfl h1
      | cons b t₂ =>
          cases l₃ with
          | nil => exact absurd rfl h2
          | cons c t₃ =>
              rw [strCmpAux] at h1 h2 ⊢
              rcases hab : compare a.toNat b.toNat with _ | _ | _ <;> rw [hab] at h1
              · rcases hbc : compare b.toNat c.toNat with _ | _ | _ <;> rw [hbc] at h2
                · have : compare a.toNat c.toNat = .lt := Nat.compare_eq_lt.mpr
                    (Nat.lt_trans (Nat.compare_eq_lt.mp hab) (Nat.compare_eq_lt.mp hbc))
                  rw [this]
                  simp
                · have : compare a.toNat c.toNat = .lt := Nat.compare_eq_lt.mpr
                    (Nat.lt_of_lt_of_le (Nat.compare_eq_lt.mp hab)
                      (Nat.le_of_eq (Nat.compare_eq_eq.mp hbc)))
                  rw [this]
                  simp
                · exact absurd rfl h2
              · rcases hbc : compare b.toNat c.toNat with _ | _ | _ <;> rw [hbc] at h2
                · have : compare a.toNat c.toNat = .lt := Nat.compare_eq_lt.mpr
                    (Nat.lt_of_le_of_lt (Nat.le_of_eq (Nat.compare_eq_eq.mp hab))
                      (Nat.compare_eq_lt.mp hbc))
                  rw [this]
                  simp
                · have : compare a.toNat c.toNat = .eq := Nat.compare_eq_eq.mpr
                    ((Nat.compare_eq_eq.mp hab).trans (Nat.compare_eq_eq.mp hbc))
                  rw [this]
                  exact ih t₂ t₃ h1 h2
                · exact absurd rfl h2
              · exact absurd rfl h1

theorem strCmp_le_trans {x y z : String} (h1 : strCmp x y ≠ .gt) (h2 : strCmp y z ≠ .gt) :
    strCmp x z ≠ .gt := strCmpAux_le_trans x.data y.data z.data h1 h2

/-- On `ε`-separated values the Sortable order's `≤` is transitive. -/
theorem pvCmp_le_trans_sep {a b c : JValue}
    (hab : numSepB a b = true) (hbc : numSepB b c = true) (hac : numSepB a c = true)
    (h1 : pvCmp a b ≠ .gt) (h2 : pvCmp b c ≠ .gt) : pvCmp a c ≠ .gt := by
  intro hgt
  have r1 : varRank a ≤ varRank b := rank_le_of_pvCmp_ne_gt h1
  have r2 : varRank b ≤ varRank c := rank_le_of_pvCmp_ne_gt h2
  have r3 : varRank c ≤ varRank a := by
    by_contra hrc
    push_neg at hrc
    rw [pvCmp_rank_lt hrc] at hgt
    exact Ordering.noConfusion hgt
  have e1 : varRank a = varRank b := Nat.le_antisymm r1 (by omega)
  have e2 : varRank b = varRank c := Nat.le_antisymm r2 (by omega)
  cases a <;> cases b <;> cases c <;>
    first
      | (simp [varRank] at e1 e2)
      | skip
  · rw [pvCmp_refl] at hgt
    exact Ordering.noConfusion hgt
  · rename_i x y z
    revert h1 h2 hgt
    cases x <;> cases y <;> cases z <;> decide
  · rename_i x y z
    have hxy : x.toRat ≤ y.toRat := by
      by_contra hc
      push_neg at hc
      exact h1 (((pvCmp_num_sep hab).2.2).mpr hc)
    have hyz : y.toRat ≤ z.toRat := by
      by_contra hc
      push_neg at hc
      exact h2 (((pvCmp_num_sep hbc).2.2).mpr hc)
    have hzx : z.toRat < x.toRat := ((pvCmp_num_sep hac).2.2).mp hgt
    exact absurd (lt_of_lt_of_le (lt_of_lt_of_le hzx hxy) hyz) (lt_irrefl _)
  · rename_i x y z
    rw [pvCmp_str] at h1 h2 hgt
    exact strCmp_le_trans h1 h2 hgt
  · rename_i xs ys zs
    have : pvCmp (JValue.arr xs) (JValue.arr zs) = .eq := pvCmp_eq_iff_pvEq.mpr rfl
    rw [this] at hgt
    exact Ordering.noConfusion hgt
  · rename_i kx ky kz
    have : pvCmp (JValue.obj kx) (JValue.obj kz) = .eq := pvCmp_eq_iff_pvEq.mpr rfl
    rw [this] at hgt
    exact Ordering.noConfusion hgt

theorem pvCmp_eq_trans_sep {a b c : JValue}
    (hab : numSepB a b = true) (hbc : numSepB b c = true) (hac : numSepB a c = true)
    (h1 : pvCmp a b = .eq) (h2 : pvCmp b c = .eq) : pvCmp a c = .eq := by
  have hba : numSepB b a = true := by rw [numSepB_symm]; exact hab
  have hcb : numSepB c b = true := by rw [numSepB_symm]; exact hbc
  have hca : numSepB c a = true := by rw [numSepB_symm]; exact hac
  have l1 : pvCmp a b ≠ .gt := by rw [h1]; simp
  have l1' : pvCmp b a ≠ .gt := by rw [pvCmp_swap a b, h1]; decide
  have l2 : pvCmp b c ≠ .gt := by rw [h2]; simp
  have l2' : pvCmp c b ≠ .gt := by rw [pvCmp_swap b c, h2]; decide
  have lac : pvCmp a c ≠ .gt := pvCmp_le_trans_sep hab hbc hac l1 l2
  have lca : pvCmp c a ≠ .gt := pvCmp_le_trans_sep hcb hba hca l2' l1'
  rcases hv : pvCmp a c with _ | _ | _
  · exfalso
    apply lca
    rw [pvCmp_swap a c, hv]
    rfl
  · rfl
  · exact absurd hv lac

theorem pvCmp_lt_trans_sep {a b c : JValue}
    (hab : numSepB a b = true) (hbc : numSepB b c = true) (hac : numSepB a c = true)
    (h1 : pvCmp a b = .lt) (h2 : pvCmp b c = .lt) : pvCmp a c = .lt := by
  have hba : numSepB b a = true := by rw [numSepB_symm]; exact hab
  have hca : numSepB c a = true := by rw [numSepB_symm]; exact hac
  have l1 : pvCmp a b ≠ .gt := by rw [h1]; simp
  have l2 : pvCmp b c ≠ .gt := by rw [h2]; simp
  have lac : pvCmp a c ≠ .gt := pvCmp_le_trans_sep hab hbc hac l1 l2
  rcases hv : pvCmp a c with _ | _ | _
  · rfl
  · exfalso
    have hcb : numSepB c b = true := by rw [numSepB_symm]; exact hbc
    have lca : pvCmp c a ≠ .gt := by
      rw [pvCmp_swap a c, hv]
      decide
    have lcb : pvCmp c b ≠ .gt := pvCmp_le_trans_sep hca hab hcb lca l1
    apply lcb
    rw [pvCmp_swap b c, h2]
    rfl
  · exact absurd hv lac

/-! # Claim theorems for the Sortable Value order -/

/-- C4 counterexample: the Sortable Value comparison is not transitive and is
not exact within `Number`: with the numbers `2ε`, `ε`, `0`
(`ε = f64::EPSILON`), `2ε` compares equal to `ε` and `ε` compares equal to
`0`, yet `2ε` compares `Greater` than `0` — so "within Number numeric" and
transitivity fail as stated. -/
theorem claim4_counterexample :
    pvCmp (.num (.ofFloat eps2)) (.num (.ofFloat eps)) = .eq ∧
    pvCmp (.num (.ofFloat eps)) (.num (.ofInt 0)) = .eq ∧
    pvCmp (.num (.ofFloat eps2)) (.num (.ofInt 0)) = .gt :=
  ⟨by decide, by decide, by decide⟩

/-- C4 (amended): ascending over variants the order is the ladder
`Null < Array < Object < Bool < Number < String`; within `Bool`
`false < true`; within `Number` values within machine epsilon compare equal
and otherwise compare by exact numeric order; within `String` the order is
lexicographic; `Array`/`Array` and `Object`/`Object` pairs always compare
equal; the comparison is total, reflexive and swap-antisymmetric; and it is
transitive (for `≤`, `=` and `<`) on values whose numeric members are
pairwise either exactly equal or more than machine epsilon apart — while
unrestricted transitivity fails (see the counterexample). -/
theorem claim4_total_order_amended :
    (∀ a b : JValue, varRank a < varRank b → pvCmp a b = .lt ∧ pvCmp b a = .gt) ∧
    (pvCmp (.bool false) (.bool true) = .lt ∧ pvCmp (.bool true) (.bool false) = .gt) ∧
    (∀ x y : JNum, pvCmp (.num x) (.num y) =
      if |x.toRat - y.toRat| ≤ eps then .eq
      else if x.toRat < y.toRat then .lt else .gt) ∧
    (∀ x y : String, pvCmp (.str x) (.str y) = strCmp x y) ∧
    (∀ xs ys : List JValue, pvCmp (.arr xs) (.arr ys) = .eq) ∧
    (∀ kxs kys : List (String × JValue), pvCmp (.obj kxs) (.obj kys) = .eq) ∧
    (∀ a : JValue, pvCmp a a = .eq) ∧
    (∀ a b : JValue, pvCmp b a = (pvCmp a b).swap) ∧
    (∀ a b c : JValue, numSepB a b = true → numSepB b c = true → numSepB a c = true →
      (pvCmp a b ≠ .gt → pvCmp b c ≠ .gt → pvCmp a c ≠ .gt) ∧
      (pvCmp a b = .eq → pvCmp b c = .eq → pvCmp a c = .eq) ∧
      (pvCmp a b = .lt → pvCmp b c = .lt → pvCmp a c = .lt)) := by
  refine ⟨?_, ⟨by decide, by decide⟩, pvCmp_num, pvCmp_str, ?_, ?_, pvCmp_refl,
    fun a b => pvCmp_swap a b, ?_⟩
  · intro a b h
    exact ⟨pvCmp_rank_lt h, pvCmp_rank_gt h⟩
  · intro xs ys
    exact pvCmp_eq_iff_pvEq.mpr rfl
  · intro kxs kys
    exact pvCmp_eq_iff_pvEq.mpr rfl
  · intro a b c hab hbc hac
    exact ⟨pvCmp_le_trans_sep hab hbc hac, pvCmp_eq_trans_sep hab hbc hac,
      pvCmp_lt_trans_sep hab hbc hac⟩

/-- C4 witness: the variant ladder at `Null`/`Bool`, and restricted
transitivity at the well-separated numbers `0 < 1 < 2`. -/
theorem claim4_witness :
    (pvCmp JValue.null (.bool true) = .lt ∧ pvCmp (.bool true) JValue.null = .gt) ∧
    pvCmp (.num (.ofInt 0)) (.num (.ofInt 2)) ≠ .gt :=
  ⟨claim4_total_order_amended.1 JValue.null (.bool true) (by decide),
    (claim4_total_order_amended.2.2.2.2.2.2.2.2 (.num (.ofInt 0)) (.num (.ofInt 1))
        (.num (.ofInt 2)) (by decide) (by decide) (by decide)).1 (by decide) (by decide)⟩

/-! ## Short-circuit scan semantics of the compound nodes -/

instance {ε α : Type _} [DecidableEq ε] [DecidableEq α] : DecidableEq (Except ε α) := fun x y =>
  match x, y with
  | .ok a, .ok b =>
      if h : a = b then .isTrue (by rw [h]) else .isFalse fun hc => h (Except.ok.inj hc)
  | .error a, .error b =>
      if h : a = b then .isTrue (by rw [h]) else .isFalse fun hc => h (Except.error.inj hc)
  | .ok _, .error _ => .isFalse fun hc => Except.noConfusion hc
  | .error _, .ok _ => .isFalse fun hc => Except.noConfusion hc

/-- The short-circuit scan over the children's results: the first error or
first deciding value is returned, the neutral value if no child decides.
The deciding value is `false` for `and` and `true` for `or`. -/
def scanResults (decider : Bool) : List (Except ErrorCode Bool) → Except ErrorCode Bool
  | [] => .ok !decider
  | r :: rs => match r with
      | .ok b => if b = decider then .ok b else scanResults decider rs
      | .error e => .error e

theorem evalAnd_eq_scan (rt : RegexTester) (cs : List Condition) (v : SValue) :
    Condition.evalAnd rt cs v = scanResults false (cs.map fun c => c.eval rt v) := by
  induction cs with
  | nil => rfl
  | cons c t ih =>
      simp only [Condition.evalAnd, List.map_cons, scanResults]
      rcases h : Condition.eval rt c v with e | b
      · simp
      · cases b <;> simp [ih]

theorem evalOr_eq_scan (rt : RegexTester) (cs : List Condition) (v : SValue) :
    Condition.evalOr rt cs v = scanResults true (cs.map fun c => c.eval rt v) := by
  induction cs with
  | nil => rfl
  | cons c t ih =>
      simp only [Condition.evalOr, List.map_cons, scanResults]
      rcases h : Condition.eval rt c v with e | b
      · simp
      · cases b <;> simp [ih]

theorem qevalAnd_eq_scan (rt : RegexTester) (cs : List QueryCondition) (v : JValue) :
    QueryCondition.evalAnd rt cs v = scanResults false (cs.map fun c => c.eval rt v) := by
  induction cs with
  | nil => rfl
  | cons c t ih =>
      simp only [QueryCondition.evalAnd, List.map_cons, scanResults]
      rcases h : QueryCondition.eval rt c v with e | b
      · simp
      · cases b <;> simp [ih]

theorem qevalOr_eq_scan (rt : RegexTester) (cs : List QueryCondition) (v : JValue) :
    QueryCondition.evalOr rt cs v = scanResults true (cs.map fun c => c.eval rt v) := by
  induction cs with
  | nil => rfl
  | cons c t ih =>
      simp only [QueryCondition.evalOr, List.map_cons, scanResults]
      rcases h : QueryCondition.eval rt c v with e | b
      · simp
      · cases b <;> simp [ih]

theorem scanResults_and_all_ok (rs : List (Except ErrorCode Bool))
    (h : ∀ r ∈ rs, ∃ b, r = .ok b) :
    scanResults false rs = .ok (rs.all fun r => decide (r = .ok true)) := by
  induction rs with
  | nil => rfl
  | cons r t ih =>
      obtain ⟨b, hb⟩ := h r (List.mem_cons_self r t)
      subst hb
      rw [scanResults]
      cases b
      · simp
      · simp only [List.all_cons]
        rw [ih fun r hr => h r (List.mem_cons_of_mem _ hr)]
        simp

theorem scanResults_or_any_ok (rs : List (Except ErrorCode Bool))
    (h : ∀ r ∈ rs, ∃ b, r = .ok b) :
    scanResults true rs = .ok (rs.any fun r => decide (r = .ok true)) := by
  induction rs with
  | nil => rfl
  | cons r t ih =>
      obtain ⟨b, hb⟩ := h r (List.mem_cons_self r t)
      subst hb
      rw [scanResults]
      cases b
      · simp only [List.any_cons]
        rw [ih fun r hr => h r (List.mem_cons_of_mem _ hr)]
        simp
      · simp

theorem scanResults_error_iff (d : Bool) (e : ErrorCode) :
    ∀ rs : List (Except ErrorCode Bool),
      scanResults d rs = .error e ↔
        ∃ pre post, rs = pre ++ .error e :: post ∧ ∀ r ∈ pre, r = .ok !d := by
  intro rs
  induction rs with
  | nil =>
      simp only [scanResults]
      constructor
      · intro h
        exact Except.noConfusion h
      · rintro ⟨pre, post, hsplit, _⟩
        exact absurd hsplit (by simp)
  | cons r t ih =>
      rcases r with e' | b <;> simp only [scanResults]
      · constructor
        · intro h
          exact ⟨[], t, by simp [Except.error.inj h], by simp⟩
        · rintro ⟨pre, post, hsplit, hpre⟩
          cases pre with
          | nil =>
              simp only [List.nil_append, List.cons.injEq] at hsplit
              rw [hsplit.1]
          | cons x pre' =>
              simp only [List.cons_append, List.cons.injEq] at hsplit
              have hmem := hpre x (List.mem_cons_self x pre')
              rw [← hsplit.1] at hmem
              exact Except.noConfusion hmem
      · by_cases hb : b = d
        · subst hb
          rw [if_pos rfl]
          constructor
          · intro h
            exact Except.noConfusion h
          · rintro ⟨pre, post, hsplit, hpre⟩
            cases pre with
            | nil =>
                simp only [List.nil_append, List.cons.injEq] at hsplit
                exact Except.noConfusion hsplit.1
            | cons x pre' =>
                simp only [List.cons_append, List.cons.injEq] at hsplit
                have hx := hpre x (List.mem_cons_self x pre')
                rw [← hsplit.1] at hx
                have hbb : b = !b := Except.ok.inj hx
                simp at hbb
        · rw [if_neg hb]
          have hbn : b = !d := by
            cases b <;> cases d <;> simp_all
          subst hbn
          rw [ih]
          constructor
          · rintro ⟨pre, post, hsplit, hpre⟩
            refine ⟨Except.ok (!d) :: pre, post, by rw [hsplit]; rfl, ?_⟩
            intro r hr
            rcases List.mem_cons.mp hr with rfl | hr'
            · rfl
            · exact hpre r hr'
          · rintro ⟨pre, post, hsplit, hpre⟩
            cases pre with
            | nil =>
                simp only [List.nil_append, List.cons.injEq] at hsplit
                exact absurd hsplit.1 (by simp)
            | cons x pre' =>
                simp only [List.cons_append, List.cons.injEq] at hsplit
                exact ⟨pre', post, hsplit.2, fun r hr => hpre r (List.mem_cons_of_mem x hr)⟩

theorem scanResults_decided_iff (d : Bool) :
    ∀ rs : List (Except ErrorCode Bool),
      scanResults d rs = .ok d ↔
        ∃ pre post, rs = pre ++ .ok d :: post ∧ ∀ r ∈ pre, r = .ok !d := by
  intro rs
  induction rs with
  | nil =>
      simp only [scanResults]
      constructor
      · intro h
        have : (!d) = d := Except.ok.inj h
        simp at this
      · rintro ⟨pre, post, hsplit, _⟩
        exact absurd hsplit (by simp)
  | cons r t ih =>
      rcases r with e' | b <;> simp only [scanResults]
      · constructor
        · intro h
          exact Except.noConfusion h
        · rintro ⟨pre, post, hsplit, hpre⟩
          cases pre with
          | nil =>
              simp only [List.nil_append, List.cons.injEq] at hsplit
              exact Except.noConfusion hsplit.1
          | cons x pre' =>
              simp only [List.cons_append, List.cons.injEq] at hsplit
              have hmem := hpre x (List.mem_cons_self x pre')
              rw [← hsplit.1] at hmem
              exact Except.noConfusion hmem
      · by_cases hb : b = d
        · subst hb
          rw [if_pos rfl]
          constructor
          · intro _
            exact ⟨[], t, rfl, by simp⟩
          · intro _
            rfl
        · rw [if_neg hb]
          have hbn : b = !d := by
            cases b <;> cases d <;> simp_all
          subst hbn
          rw [ih]
          constructor
          · rintro ⟨pre, post, hsplit, hpre⟩
            refine ⟨Except.ok (!d) :: pre, post, by rw [hsplit]; rfl, ?_⟩
            intro r hr
            rcases List.mem_cons.mp hr with rfl | hr'
            · rfl
            · exact hpre r hr'
          · rintro ⟨pre, post, hsplit, hpre⟩
            cases pre with
            | nil =>
                simp only [List.nil_append, List.cons.injEq] at hsplit
                have hdd : (!d) = d := Except.ok.inj hsplit.1
                simp at hdd
            | cons x pre' =>
                simp only [List.cons_append, List.cons.injEq] at hsplit
                exact ⟨pre', post, hsplit.2, fun r hr => hpre r (List.mem_cons_of_mem x hr)⟩

/-! # Claim theorems for the evaluators -/

/-- C3: for nonempty `And`/`Or` nodes of both evaluators, evaluation is the
short-circuit scan of the children's results in declared order; when every
child evaluates without error the result is the boolean fold (`all`/`any`);
an error is returned exactly when some child fails with that error and every
earlier child returned the non-deciding value; and a deciding value is
returned exactly when some child decides and every earlier child returned
the non-deciding value. -/
theorem claim3_short_circuit_matches_fold :
    ∀ (rt : RegexTester) (v : SValue) (doc : JValue) (cs : List Condition)
      (qs : List QueryCondition), cs ≠ [] → qs ≠ [] →
      (Condition.eval rt (.and cs) v = scanResults false (cs.map fun c => c.eval rt v) ∧
        Condition.eval rt (.or cs) v = scanResults true (cs.map fun c => c.eval rt v) ∧
        QueryCondition.eval rt (.and qs) doc =
          scanResults false (qs.map fun c => c.eval rt doc) ∧
        QueryCondition.eval rt (.or qs) doc =
          scanResults true (qs.map fun c => c.eval rt doc)) ∧
      (∀ rs : List (Except ErrorCode Bool),
        ((∀ r ∈ rs, ∃ b, r = .ok b) →
          scanResults false rs = .ok (rs.all fun r => decide (r = .ok true)) ∧
          scanResults true rs = .ok (rs.any fun r => decide (r = .ok true))) ∧
        (∀ (d : Bool) (e : ErrorCode),
          scanResults d rs = .error e ↔
            ∃ pre post, rs = pre ++ .error e :: post ∧ ∀ r ∈ pre, r = .ok !d) ∧
        (∀ d : Bool,
          scanResults d rs = .ok d ↔
            ∃ pre post, rs = pre ++ .ok d :: post ∧ ∀ r ∈ pre, r = .ok !d)) := by
  intro rt v doc cs qs hcs hqs
  constructor
  · refine ⟨?_, ?_, ?_, ?_⟩
    · rw [show Condition.eval rt (.and cs) v = Condition.evalAnd rt cs v by
        simp [Condition.eval, List.isEmpty_iff, hcs]]
      exact evalAnd_eq_scan rt cs v
    · rw [show Condition.eval rt (.or cs) v = Condition.evalOr rt cs v by
        simp [Condition.eval, List.isEmpty_iff, hcs]]
      exact evalOr_eq_scan rt cs v
    · rw [show QueryCondition.eval rt (.and qs) doc = QueryCondition.evalAnd rt qs doc by
        simp [QueryCondition.eval, List.isEmpty_iff, hqs]]
      exact qevalAnd_eq_scan rt qs doc
    · rw [show QueryCondition.eval rt (.or qs) doc = QueryCondition.evalOr rt qs doc by
        simp [QueryCondition.eval, List.isEmpty_iff, hqs]]
      exact qevalOr_eq_scan rt qs doc
  · intro rs
    exact ⟨fun h => ⟨scanResults_and_all_ok rs h, scanResults_or_any_ok rs h⟩,
      fun d e => scanResults_error_iff d e rs,
      fun d => scanResults_decided_iff d rs⟩

/-- C3 witness: an `And` of two boolean-equality children on `Bool(true)`,
whose results are `[Ok(true), Ok(false)]`. -/
theorem claim3_witness :
    Condition.eval rtNone
        (.and [.equal (.bool true), .equal (.bool false)]) (.bool true) =
      scanResults false
        ([Condition.equal (.bool true), .equal (.bool false)].map
          fun c => c.eval rtNone (.bool true)) :=
  ((claim3_short_circuit_matches_fold rtNone (.bool true) JValue.null
      [.equal (.bool true), .equal (.bool false)] [.and []]
      (by simp) (by simp)).1).1

/-- C5 counterexample: resolving the root pointer against the JSON document
`4294967296` (an integer stored as `i64`, exactly representable as an
integer) produces `Int(0)` — the `as i32` conversion wraps, so the `Int`
does not carry that integer value. -/
theorem claim5_counterexample :
    toValue "" (.num (.ofInt (2 ^ 32))) = .ok (.int 0) ∧ (0 : Int) ≠ 2 ^ 32 :=
  ⟨rfl, by decide⟩

theorem wrap32_eq_self {m : Int} (h1 : -(2 ^ 31) ≤ m) (h2 : m < 2 ^ 31) : wrap32 m = m := by
  rw [wrap32]
  omega

/-- C5 (amended): a numeric value reached by a pointer is classified as `Int`
exactly when the parser stored it as an integer within `i64` range (`Float`
otherwise, via `as_f64`); the `Int` payload is the stored integer wrapped to
32-bit two's complement, hence exactly that integer whenever it lies within
`i32` range. -/
theorem claim5_int_classification_amended :
    ∀ (p : String) (doc : JValue) (n : JNum),
      doc.pointer p = some (.num n) →
      toValue p doc = .ok (if n.isI64 then .int (wrap32 n.asI64) else .float n.toRat) ∧
      (∀ m : Int, n = .ofInt m → -(2 ^ 31) ≤ m → m < 2 ^ 31 →
        toValue p doc = .ok (.int m)) := by
  intro p doc n hres
  have h1 : toValue p doc =
      if n.isI64 then .ok (.int (wrap32 n.asI64)) else .ok (.float n.toRat) := by
    rw [toValue, hres]
  constructor
  · rw [h1]
    by_cases h : n.isI64 <;> simp [h]
  · intro m hm hlo hhi
    subst hm
    rw [h1]
    have hisI : JNum.isI64 (.ofInt m) = true := by
      rw [JNum.isI64]
      refine decide_eq_true ⟨by omega, by omega⟩
    rw [if_pos hisI, JNum.asI64, wrap32_eq_self hlo hhi]

/-- C5 witness: the document `5` resolves at the root pointer to `Int(5)`. -/
theorem claim5_witness :
    toValue "" (.num (.ofInt 5)) = .ok (.int 5) :=
  (claim5_int_classification_amended "" (.num (.ofInt 5)) (.ofInt 5) rfl).2 5 rfl
    (by decide) (by decide)

/-- C6: the `Equal` float rule returns true exactly when
`||x| − |y|| ≤ f64::EPSILON` (the absolute difference of the absolute
values), not when `|x − y| ≤ ε`; consequently `Equal(Float(-5.0))` evaluated
against `Float(5.0)` returns `Ok(true)`, even though `|−5 − 5| > ε`. -/
theorem claim6_float_equality_rule :
    (∀ (rt : RegexTester) (x y : ℚ),
      Condition.eval rt (.equal (.float x)) (.float y) = .ok (ratAbsSubLeB |x| |y| eps)) ∧
    (∀ x y : ℚ, ratAbsSubLeB |x| |y| eps = true ↔ |(|x| - |y|)| ≤ eps) ∧
    (∀ rt : RegexTester,
      Condition.eval rt (.equal (.float (-5))) (.float 5) = .ok true) ∧
    ¬ (|(-5 : ℚ) - 5| ≤ eps) := by
  refine ⟨?_, ?_, ?_, ?_⟩
  · intro rt x y
    simp [Condition.eval]
  · intro x y
    exact ratAbsSubLeB_iff
  · intro rt
    have h : ratAbsSubLeB (5 : ℚ) (5 : ℚ) eps = true := by
      rw [ratAbsSubLeB_iff]
      rw [eps_eq]
      norm_num
    simp [Condition.eval, h]
  · rw [eps_eq]
    norm_num

/-- C8: `And([])` and `Or([])` always fail with the `NoChildren` error (in
both evaluators) and never return a boolean. -/
theorem claim8_empty_compound_errors :
    ∀ (rt : RegexTester) (v : SValue) (doc : JValue),
      Condition.eval rt (.and []) v = .error (.noChildren conditionTypeName) ∧
      Condition.eval rt (.or []) v = .error (.noChildren conditionTypeName) ∧
      QueryCondition.eval rt (.and []) doc = .error (.noChildren queryConditionTypeName) ∧
      QueryCondition.eval rt (.or []) doc = .error (.noChildren queryConditionTypeName) := by
  intro rt v doc
  refine ⟨?_, ?_, ?_, ?_⟩ <;> simp [Condition.eval, QueryCondition.eval]

/-- C10 counterexample: `GreaterThan(Null)` on `Null` fails with
`TypeMismatch`, but the `want` field is the Rust type-name string
`&jsongrep::query::Value`, not `"Null"` — only `got` is `"Null"`. -/
theorem claim10_counterexample :
    Condition.eval rtNone (.greaterThan .null) .null =
      .error (.typeMismatch "Null" valueTypeName conditionTypeName) ∧
    valueTypeName ≠ "Null" := by
  constructor
  · simp [Condition.eval, SValue.display, valueTypeName, conditionTypeName]
  · decide

/-- C10 (amended): `GreaterThan`/`LessThan` with both operands `Null` fail
with `TypeMismatch` even though the variants agree (ordering is not defined
for `Null`, only equality is); the error reports `got = "Null"` and
`want` = the scalar-value type name string. -/
theorem claim10_null_ordering_type_mismatch :
    ∀ rt : RegexTester,
      Condition.eval rt (.greaterThan .null) .null =
        .error (.typeMismatch (SValue.display .null) valueTypeName conditionTypeName) ∧
      Condition.eval rt (.lessThan .null) .null =
        .error (.typeMismatch (SValue.display .null) valueTypeName conditionTypeName) ∧
      Condition.eval rt (.equal .null) .null = .ok true := by
  intro rt
  refine ⟨?_, ?_, ?_⟩ <;> simp [Condition.eval]

end Jsongrep
